import Mathlib

/-!
Verification of the ABC score-header compaction codec:
encode side `cleaner.py` (class `ABCCleaner`), decode side `mess.py`
(`restore_text_simple` and helpers).

Python strings are modelled as `List Char` (the inputs handled by the codec
are plain text; `str` indexing/slicing becomes list operations).  Each Lean
definition is a direct translation of the Python function of the same (or
clearly corresponding) name; regular expressions are translated into
explicit character scanners implementing exactly the searched pattern.
-/

set_option maxRecDepth 20000
set_option maxHeartbeats 2000000

/-- Python strings, modelled as lists of characters. -/
abbrev Chars := List Char

/-- Convert a Lean string literal to the `Chars` model. -/
def cs (s : String) : Chars := s.toList

/-- The whitespace class of Python `str.strip` / `\s` (ASCII inputs). -/
def pySpace (c : Char) : Bool :=
  c = ' ' || c = '\t' || c = '\n' || c = '\r' || c = '\x0b' || c = '\x0c'

/-- ASCII alphabetic test; models Python `str.isalpha` on the ASCII inputs
the codec handles. -/
def pyAlpha (c : Char) : Bool :=
  ('a' ≤ c && c ≤ 'z') || ('A' ≤ c && c ≤ 'Z')

/-- ASCII digit test; models Python `str.isdigit` on ASCII inputs. -/
def pyDigit (c : Char) : Bool := '0' ≤ c && c ≤ '9'

/-- Regex word-character class `\w` (ASCII inputs). -/
def pyWord (c : Char) : Bool := pyAlpha c || pyDigit c || c = '_'

/-- ASCII lower-casing, models Python `str.lower` on ASCII inputs. -/
def pyLowerChar (c : Char) : Char :=
  if 'A' ≤ c && c ≤ 'Z' then Char.ofNat (c.toNat + 32) else c

/-- Models Python `str.lower`. -/
def pyLower (s : Chars) : Chars := s.map pyLowerChar

/-- Models Python `str.strip()` (drop leading and trailing whitespace). -/
def pyStrip (s : Chars) : Chars :=
  ((s.dropWhile pySpace).reverse.dropWhile pySpace).reverse

/-- Source `leadsWith pat s` is true iff `pat` is a prefix of `s`
(Python `str.startswith`). -/
def leadsWith : Chars → Chars → Bool
  | [], _ => true
  | _ :: _, [] => false
  | p :: ps, c :: rest => p = c && leadsWith ps rest

/-- Substring containment (Python `sub in s`). -/
def containsSub (s pat : Chars) : Bool :=
  match s with
  | [] => leadsWith pat []
  | _ :: rest => leadsWith pat s || containsSub rest pat

/-- Leftmost-match search: try the matcher at every start position, left to
right (the semantics of `re.search`). -/
def searchFrom {α : Type} (f : Chars → Option α) : Chars → Option α
  | [] => f []
  | c :: rest =>
    match f (c :: rest) with
    | some r => some r
    | none => searchFrom f rest

/-- Decimal digits of a natural number, fuel-driven so that the kernel can
evaluate it (fuel `n + 1` always suffices since `n / 10 < n` for `n ≥ 10`). -/
def natToCharsAux : Nat → Nat → Chars
  | 0, _ => []
  | fuel + 1, n =>
    if n < 10 then [Nat.digitChar n]
    else natToCharsAux fuel (n / 10) ++ [Nat.digitChar (n % 10)]

/-- Decimal digits of a natural number as characters. -/
def natToChars (n : Nat) : Chars := natToCharsAux (n + 1) n

/-- Decimal rendering of an integer (Python `str(int)`). -/
def intToChars (i : Int) : Chars :=
  if i < 0 then '-' :: natToChars i.natAbs else natToChars i.natAbs

/-- Digits to a natural number. -/
def digitsToNat (s : Chars) : Nat :=
  s.foldl (fun acc c => acc * 10 + (c.toNat - '0'.toNat)) 0

/-- Models Python `int(str)`: optional surrounding whitespace, optional
sign, then at least one digit and nothing else; `none` where Python
raises `ValueError`. -/
def pyIntParse (s : Chars) : Option Int :=
  let t := pyStrip s
  let core : Chars → Option Int := fun u =>
    if u ≠ [] && u.all pyDigit then some (Int.ofNat (digitsToNat u)) else none
  match t with
  | '-' :: rest => (core rest).map (fun n => -n)
  | '+' :: rest => core rest
  | _ => core t

/-- Models Python `str.split('\n')` (keeps empty segments). -/
def splitNl : Chars → List Chars
  | [] => [[]]
  | '\n' :: rest => [] :: splitNl rest
  | c :: rest =>
    match splitNl rest with
    | h :: t => (c :: h) :: t
    | [] => [[c]]

/-- Models Python `str.splitlines()` on `\n` / `\r\n` / `\r` terminators
(no empty final segment for a trailing terminator). -/
def pySplitlines : Chars → List Chars
  | [] => []
  | '\r' :: '\n' :: rest => [] :: pySplitlines rest
  | '\r' :: rest => [] :: pySplitlines rest
  | '\n' :: rest => [] :: pySplitlines rest
  | c :: rest =>
    match pySplitlines rest with
    | h :: t => (c :: h) :: t
    | [] => [[c]]

/-- Models Python `str.split()` with no arguments: split on whitespace
runs, no empty tokens.  Fuel-driven scanner; the wrapper supplies fuel
`s.length + 1`, which bounds the number of emitted tokens. -/
def pySplitWsAux : Nat → Chars → List Chars
  | 0, _ => []
  | fuel + 1, s =>
    let s' := s.dropWhile pySpace
    match s' with
    | [] => []
    | _ :: _ =>
      let tok := s'.takeWhile (fun c => !pySpace c)
      let rest := s'.dropWhile (fun c => !pySpace c)
      tok :: pySplitWsAux fuel rest

/-- Python `str.split()` (whitespace, no empties). -/
def pySplitWs (s : Chars) : List Chars := pySplitWsAux (s.length + 1) s

/-- Models Python `str.split(maxsplit=n)`: after `n` splits the remainder
(after skipping the delimiter run) is kept verbatim. -/
def pySplitMaxAux : Nat → Nat → Chars → List Chars
  | 0, _, _ => []
  | fuel + 1, maxLeft, s =>
    let s' := s.dropWhile pySpace
    match s' with
    | [] => []
    | _ :: _ =>
      match maxLeft with
      | 0 => [s']
      | m + 1 =>
        let tok := s'.takeWhile (fun c => !pySpace c)
        let rest := s'.dropWhile (fun c => !pySpace c)
        tok :: pySplitMaxAux fuel m rest

/-- Python `str.split(maxsplit=n)`. -/
def pySplitMax (s : Chars) (n : Nat) : List Chars :=
  pySplitMaxAux (s.length + 1) n s

/-- Models Python `sep.join(parts)` for one-string separator. -/
def joinSep (sep : Chars) : List Chars → Chars
  | [] => []
  | [x] => x
  | x :: rest => x ++ sep ++ joinSep sep rest

/-- Models `'\n'.join(lines)`. -/
def joinNl (lines : List Chars) : Chars := joinSep ['\n'] lines

example : cs "ab" = ['a', 'b'] := by decide
example : pyStrip (cs "  a b  ") = cs "a b" := by decide
example : pySplitWs (cs " a  bc d ") = [cs "a", cs "bc", cs "d"] := by decide
example : pySplitMax (cs " a b  c d ") 2 = [cs "a", cs "b", cs "c d "] := by decide
example : pySplitMax (cs "V:1 treb 0 {1|2}") 4 =
    [cs "V:1", cs "treb", cs "0", cs "{1|2}"] := by decide
example : splitNl (cs "a\n\nb\n") = [cs "a", [], cs "b", []] := by decide
example : pySplitlines (cs "a\n\nb\n") = [cs "a", [], cs "b"] := by decide
example : pyIntParse (cs " -12 ") = some (-12) := by decide
example : pyIntParse (cs "x2") = none := by decide
example : intToChars (-12) = cs "-12" := by decide
example : containsSub (cs "ab[K:D]cd") (cs "[K:") = true := by decide
example : containsSub (cs "abcd") (cs "[K:") = false := by decide

/-! ## Generic association-list operations (Python `dict` with insertion order) -/

/-- Source `dict[k] = v`: replace in place if the key exists, else append. -/
def updA {κ α : Type} [DecidableEq κ] (m : List (κ × α)) (k : κ) (v : α) :
    List (κ × α) :=
  match m with
  | [] => [(k, v)]
  | (k', v') :: rest => if k' = k then (k, v) :: rest else (k', v') :: updA rest k v

/-- Source `dict.get(k)`. -/
def lookupA {κ α : Type} [DecidableEq κ] (m : List (κ × α)) (k : κ) : Option α :=
  match m with
  | [] => none
  | (k', v') :: rest => if k' = k then some v' else lookupA rest k

/-- Source `dict.setdefault(k, v)` (keep an existing entry, else append). -/
def setdefaultA {κ α : Type} [DecidableEq κ] (m : List (κ × α)) (k : κ) (v : α) :
    List (κ × α) :=
  match lookupA m k with
  | some _ => m
  | none => m ++ [(k, v)]

/-- Python `set.add` modelled on an insertion-ordered duplicate-free list. -/
def addElem {α : Type} [DecidableEq α] (l : List α) (x : α) : List α :=
  if x ∈ l then l else l ++ [x]

/-- Keys of an association list. -/
def keysA {κ α : Type} (m : List (κ × α)) : List κ := m.map Prod.fst

/-! ## cleaner.py — header/body split and header field extraction -/

/-- Source `ABCCleaner._is_header`: the stripped line starts with one alphabetic
character followed by `:`, or starts with `%%`. -/
def isHeader (line : Chars) : Bool :=
  let s := pyStrip line
  (decide (s.length ≥ 2) && pyAlpha (s.headD ' ') && decide (s.get? 1 = some ':'))
    || leadsWith (cs "%%") s

/-- Source `ABCCleaner._split_header_bars` inner loop with the `in_body` flag. -/
def splitHeaderBarsAux (inBody : Bool) : List Chars → List Chars × List Chars
  | [] => ([], [])
  | ln :: rest =>
    if !inBody && isHeader ln then
      let (h, b) := splitHeaderBarsAux false rest
      (ln :: h, b)
    else
      let (h, b) := splitHeaderBarsAux true rest
      (h, ln :: b)

/-- Source `ABCCleaner._split_header_bars`. -/
def splitHeaderBars (lines : List Chars) : List Chars × List Chars :=
  splitHeaderBarsAux false lines

/-- Source `_Q_RE = ^Q:\s*(.+)$` applied to the stripped line, returning
`group(1).strip()` (the behaviour of `_pick_once`).  Because the line is
stripped first, the group's strip equals dropping the leading whitespace. -/
def matchQ (line : Chars) : Option Chars :=
  let s := pyStrip line
  if leadsWith (cs "Q:") s && decide (s.drop 2 ≠ []) then some (pyStrip (s.drop 2))
  else none

/-- Source `_M_RE = ^M:\s*(.+)$` on the stripped line, per `_pick_once`. -/
def matchM (line : Chars) : Option Chars :=
  let s := pyStrip line
  if leadsWith (cs "M:") s && decide (s.drop 2 ≠ []) then some (pyStrip (s.drop 2))
  else none

/-- Source `_K_RE = ^K:\s*(.+)$` on the stripped line, per `_pick_once`. -/
def matchK (line : Chars) : Option Chars :=
  let s := pyStrip line
  if leadsWith (cs "K:") s && decide (s.drop 2 ≠ []) then some (pyStrip (s.drop 2))
  else none

/-- Source `_SCORE_RE = ^%%score\s+(.*)$` on the stripped line, per `_pick_once`:
at least one whitespace character must follow the literal `%%score`. -/
def matchScore (line : Chars) : Option Chars :=
  let s := pyStrip line
  if leadsWith (cs "%%score") s && pySpace ((s.drop 7).headD 'x') then
    some (pyStrip (s.drop 7))
  else none

/-- Source `ABCCleaner._pick_once`: first line whose matcher fires. -/
def pickOnce (header : List Chars) (m : Chars → Option Chars) : Option Chars :=
  match header with
  | [] => none
  | ln :: rest =>
    match m ln with
    | some v => some v
    | none => pickOnce rest m

/-- Source `_V_RE = ^V:\s*(\d+)\b(.*)$` on the stripped line; returns the voice id
and `group(2).strip()` (the payload).  The `\b` after `\d+` fails exactly
when the character after the digit run is a word character. -/
def matchVLine (line : Chars) : Option (Nat × Chars) :=
  let s := pyStrip line
  if leadsWith (cs "V:") s then
    let after := (s.drop 2).dropWhile pySpace
    let digs := after.takeWhile pyDigit
    let rest := after.dropWhile pyDigit
    if digs ≠ [] && (match rest with | [] => true | c :: _ => !pyWord c) then
      some (digitsToNat digs, pyStrip rest)
    else none
  else none

example : matchQ (cs " Q: 1/4=120 ") = some (cs "1/4=120") := by decide
example : matchQ (cs "Q:") = none := by decide
example : matchScore (cs "%%score {1|2}") = some (cs "{1|2}") := by decide
example : matchScore (cs "%%score") = none := by decide
example : matchScore (cs "%%scoreX 1") = none := by decide
example : matchVLine (cs "V:12 clef=bass") = some (12, cs "clef=bass") := by decide
example : matchVLine (cs "V:12abc") = none := by decide
example : matchVLine (cs "V: 3") = some (3, []) := by decide

/-! ## cleaner.py — `_parse_v_payload` -/

/-- The regex `clef\s*=\s*([A-Za-z]+)\s*([+-]\d+)?` tried at one position:
returns `(group 1, group 2 or "")`. -/
def matchClefAt (s : Chars) : Option (Chars × Chars) :=
  if leadsWith (cs "clef") s then
    match (s.drop 4).dropWhile pySpace with
    | '=' :: r2 =>
      let r3 := r2.dropWhile pySpace
      let letters := r3.takeWhile pyAlpha
      if letters ≠ [] then
        let r5 := (r3.dropWhile pyAlpha).dropWhile pySpace
        let octv :=
          match r5 with
          | c :: r6 =>
            if c = '+' || c = '-' then
              let ds := r6.takeWhile pyDigit
              if ds ≠ [] then c :: ds else []
            else []
          | [] => []
        some (letters, octv)
      else none
    | _ => none
  else none

/-- Source `re.search` of the clef pattern over the payload. -/
def findClef (payload : Chars) : Option (Chars × Chars) :=
  searchFrom matchClefAt payload

/-- The regex `transpose\s*=\s*(-?\d+)` tried at one position. -/
def matchTransposeAt (s : Chars) : Option Int :=
  if leadsWith (cs "transpose") s then
    match (s.drop 9).dropWhile pySpace with
    | '=' :: r2 =>
      match r2.dropWhile pySpace with
      | '-' :: r4 =>
        let ds := r4.takeWhile pyDigit
        if ds ≠ [] then some (-(Int.ofNat (digitsToNat ds))) else none
      | r3 =>
        let ds := r3.takeWhile pyDigit
        if ds ≠ [] then some (Int.ofNat (digitsToNat ds)) else none
    | _ => none
  else none

/-- Source `re.search` of the transpose pattern over the payload. -/
def findTranspose (payload : Chars) : Option Int :=
  searchFrom matchTransposeAt payload

/-- The regex `nm="([^"]*)"` (with the given literal head, also used for
`snm="..."`) tried at one position. -/
def matchQuotedAt (head : Chars) (s : Chars) : Option Chars :=
  if leadsWith head s then
    let afterHead := s.drop head.length
    let body := afterHead.takeWhile (fun c => c ≠ '"')
    match afterHead.dropWhile (fun c => c ≠ '"') with
    | '"' :: _ => some body
    | _ => none
  else none

/-- Source `re.search(r'nm="([^"]*)"', payload)`. -/
def findNm (payload : Chars) : Option Chars :=
  searchFrom (matchQuotedAt (cs "nm=\"")) payload

/-- Source `re.search(r'snm="([^"]*)"', payload)`. -/
def findSnm (payload : Chars) : Option Chars :=
  searchFrom (matchQuotedAt (cs "snm=\"")) payload

/-- First whitespace token containing no `=` (the clef fallback loop);
empty if none, matching the `clef = ""` initialisation. -/
def firstNoEq : List Chars → Chars
  | [] => []
  | t :: rest => if containsSub t (cs "=") then firstNoEq rest else t

/-- One voice's parsed metadata (`cleaner.py` keeps it as a string dict). -/
structure VMeta where
  clef : Chars
  transpose : Int
  nm : Chars
  snm : Chars
deriving DecidableEq, Repr

/-- Source `ABCCleaner._parse_v_payload`. -/
def parseVPayload (payload : Chars) : VMeta :=
  let toks := pySplitWs payload
  let clef :=
    match findClef payload with
    | some (base, octv) => pyLower base ++ octv
    | none => pyLower (firstNoEq toks)
  let transpose := (findTranspose payload).getD 0
  let nm := (findNm payload).map pyStrip |>.getD []
  let snm := (findSnm payload).map pyStrip |>.getD []
  ⟨clef, transpose, nm, snm⟩

example : parseVPayload (cs "clef=treble transpose=0 nm=\"Flute\" snm=\"Fl.\"") =
    ⟨cs "treble", 0, cs "Flute", cs "Fl."⟩ := by decide
example : parseVPayload (cs "clef=Treble+8") = ⟨cs "treble+8", 0, [], []⟩ := by decide
example : parseVPayload (cs "bass transpose=-12") = ⟨cs "bass", -12, [], []⟩ := by decide
example : parseVPayload (cs "bass transpose=x") = ⟨cs "bass", 0, [], []⟩ := by decide
example : parseVPayload (cs "snm=\"Fl.\"") = ⟨[], 0, cs "Fl.", cs "Fl."⟩ := by decide

/-! ## cleaner.py — `_collect_v_and_percmap` -/

/-- The per-voice percussion override block: the `"K"` and `"I"` lists of
`percussive_inline[vid]` (a key is present iff its list is non-empty,
since entries are only ever created by an append). -/
structure PercEntry where
  kList : List Chars
  iList : List Chars
deriving DecidableEq, Repr

/-- Source `percussive_inline.setdefault(vid, {}).setdefault("K", []).append(x)`. -/
def percAddK (m : List (Nat × PercEntry)) (vid : Nat) (x : Chars) :
    List (Nat × PercEntry) :=
  match lookupA m vid with
  | some e => updA m vid ⟨e.kList ++ [x], e.iList⟩
  | none => m ++ [(vid, ⟨[x], []⟩)]

/-- Source `percussive_inline.setdefault(vid, {}).setdefault("I", []).append(x)`. -/
def percAddI (m : List (Nat × PercEntry)) (vid : Nat) (x : Chars) :
    List (Nat × PercEntry) :=
  match lookupA m vid with
  | some e => updA m vid ⟨e.kList, e.iList ++ [x]⟩
  | none => m ++ [(vid, ⟨[], [x]⟩)]

/-- The loop state of `_collect_v_and_percmap`. -/
structure CollectState where
  vmeta : List (Nat × VMeta)
  perc : List (Nat × PercEntry)
  lastVid : Option Nat
  lastIsPerc : Bool
deriving DecidableEq, Repr

/-- One iteration of the `_collect_v_and_percmap` loop. -/
def collectStep (st : CollectState) (ln : Chars) : CollectState :=
  match matchVLine ln with
  | some (vid, payload) =>
    let p := parseVPayload payload
    ⟨updA st.vmeta vid p, st.perc, some vid, p.clef = cs "perc"⟩
  | none =>
    match matchK ln, st.lastVid, st.lastIsPerc with
    | some kval, some lv, true =>
      if pyLower kval = cs "none" then
        { st with perc := percAddK st.perc lv (cs "none") }
      else st
    | _, _, _ =>
      match st.lastVid, st.lastIsPerc with
      | some lv, true =>
        if leadsWith (cs "I:percmap") ln then
          { st with perc := percAddI st.perc lv (pyStrip ln) }
        else st
      | _, _ => st

/-- Source `ABCCleaner._collect_v_and_percmap`. -/
def collectVAndPercmap (header : List Chars) :
    List (Nat × VMeta) × List (Nat × PercEntry) :=
  let st := header.foldl collectStep ⟨[], [], none, false⟩
  (st.vmeta, st.perc)

/-! ## cleaner.py — `_score_tokenize` and `_build_group_map` -/

/-- Tokens of the `%%score` mini-language.  `_score_tokenize` emits the four
bracket characters, `|`, and maximal digit runs (every other character is
skipped); the `int(tk)` conversion in `_build_group_map` cannot fail on a
digit run, so the token is modelled with its numeric value directly. -/
inductive STok where
  | openP
  | openB
  | closeP
  | closeB
  | pipe
  | num (n : Nat)
deriving DecidableEq, Repr

/-- Source `ABCCleaner._score_tokenize`, fuel-driven (each step consumes at least
one character, so fuel `s.length` suffices). -/
def scoreTokenizeAux : Nat → Chars → List STok
  | 0, _ => []
  | _, [] => []
  | fuel + 1, c :: rest =>
    if pySpace c then scoreTokenizeAux fuel rest
    else if c = '(' then .openP :: scoreTokenizeAux fuel rest
    else if c = ')' then .closeP :: scoreTokenizeAux fuel rest
    else if c = '{' then .openB :: scoreTokenizeAux fuel rest
    else if c = '}' then .closeB :: scoreTokenizeAux fuel rest
    else if c = '|' then .pipe :: scoreTokenizeAux fuel rest
    else if pyDigit c then
      .num (digitsToNat (c :: rest.takeWhile pyDigit))
        :: scoreTokenizeAux fuel (rest.dropWhile pyDigit)
    else scoreTokenizeAux fuel rest

/-- Source `ABCCleaner._score_tokenize`. -/
def scoreTokenize (s : Chars) : List STok := scoreTokenizeAux s.length s

/-- A stack node of `_build_group_map`:
`{"type": '(' or '{', "elems": [...], "nums": set()}`.  The `nums` set is
modelled as an insertion-ordered duplicate-free list. -/
structure SNode where
  isParen : Bool
  elems : List Chars
  nums : List Nat
deriving DecidableEq, Repr

/-- Source `set.update` (insertion order of the added elements). -/
def unionNums (a b : List Nat) : List Nat := b.foldl addElem a

/-- The walk state of `_build_group_map`; the head of `stack` is the
innermost open accumulator (Python appends/pops at the list's end). -/
structure ScoreState where
  stack : List SNode
  pmap : List (Nat × Chars)
  bmap : List (Nat × Chars)
deriving DecidableEq, Repr

/-- Render a popped node as `(a|b|…)` or `{a|b|…}` (the string built in
`flush_group`). -/
def renderNode (node : SNode) : Chars :=
  if node.isParen then '(' :: (joinSep (cs "|") node.elems ++ [')'])
  else '{' :: (joinSep (cs "|") node.elems ++ ['}'])

/-- Source `flush_group`'s map update: `setdefault` every member id into the map
selected by the node's own type. -/
def flushNums (m : List (Nat × Chars)) (nums : List Nat) (s : Chars) :
    List (Nat × Chars) :=
  nums.foldl (fun acc n => setdefaultA acc n s) m

/-- One iteration of the token walk in `_build_group_map`.  Both closers
are handled by one branch because the source ignores a type mismatch
(`# ignore malformed`) and proceeds with the popped node's own type;
a closer with an empty stack is a stray and is ignored. -/
def scoreStep (st : ScoreState) (tk : STok) : ScoreState :=
  match tk with
  | .openP => { st with stack := ⟨true, [], []⟩ :: st.stack }
  | .openB => { st with stack := ⟨false, [], []⟩ :: st.stack }
  | .closeP | .closeB =>
    match st.stack with
    | [] => st
    | node :: rest =>
      let s := renderNode node
      let pmap := if node.isParen then flushNums st.pmap node.nums s else st.pmap
      let bmap := if node.isParen then st.bmap else flushNums st.bmap node.nums s
      match rest with
      | parent :: rest' =>
        ⟨{ parent with
            elems := parent.elems ++ [s],
            nums := unionNums parent.nums node.nums } :: rest', pmap, bmap⟩
      | [] => ⟨[], pmap, bmap⟩
  | .pipe => st
  | .num n =>
    match st.stack with
    | top :: rest =>
      { st with stack :=
          { top with elems := top.elems ++ [natToChars n],
                     nums := addElem top.nums n } :: rest }
    | [] =>
      { st with pmap := setdefaultA st.pmap n ('(' :: (natToChars n ++ [')'])) }

/-- The final state of the `_build_group_map` walk. -/
def scoreRun (payload : Chars) : ScoreState :=
  (scoreTokenize payload).foldl scoreStep ⟨[], [], []⟩

/-- The final merge of `_build_group_map`: paren entries first, then brace
entries overriding. -/
def mergeMaps (pmap bmap : List (Nat × Chars)) : List (Nat × Chars) :=
  bmap.foldl (fun m kv => updA m kv.1 kv.2)
    (pmap.foldl (fun m kv => updA m kv.1 kv.2) [])

/-- Source `ABCCleaner._build_group_map`. -/
def buildGroupMap (payload : Chars) : List (Nat × Chars) :=
  let st := scoreRun payload
  mergeMaps st.pmap st.bmap

example : scoreTokenize (cs "{(1|2)|34}") =
    [.openB, .openP, .num 1, .pipe, .num 2, .closeP, .pipe, .num 34, .closeB] := by
  decide
example : lookupA (buildGroupMap (cs "{(1|2)|3}")) 1 = some (cs "{(1|2)|3}") := by decide
example : lookupA (buildGroupMap (cs "{(1|2)|3}")) 2 = some (cs "{(1|2)|3}") := by decide
example : lookupA (buildGroupMap (cs "{(1|2)|3}")) 3 = some (cs "{(1|2)|3}") := by decide
example : lookupA (buildGroupMap (cs "(1|2) 3")) 1 = some (cs "(1|2)") := by decide
example : lookupA (buildGroupMap (cs "(1|2) 3")) 3 = some (cs "(3)") := by decide
example : buildGroupMap (cs "(1") = [] := by decide
example : lookupA (buildGroupMap (cs "(1|2\x7d")) 1 = some (cs "(1|2)") := by decide
example : lookupA (buildGroupMap (cs "{1|2}")) 2 = some (cs "{1|2}") := by decide

/-! ## cleaner.py — `_broadcast_snm` -/

/-- Source `group_map.get(vid, f'({vid})')`. -/
def gkeyOf (gm : List (Nat × Chars)) (vid : Nat) : Chars :=
  (lookupA gm vid).getD ('(' :: (natToChars vid ++ [')']))

/-- Source `g2vids.setdefault(gkey, []).append(vid)`. -/
def bucketsAdd (acc : List (Chars × List Nat)) (g : Chars) (v : Nat) :
    List (Chars × List Nat) :=
  match acc with
  | [] => [(g, [v])]
  | (g', vs) :: rest =>
    if g' = g then (g', vs ++ [v]) :: rest else (g', vs) :: bucketsAdd rest g v

/-- The `g2vids` grouping of `_broadcast_snm`, which depends only on the
key list of `vmeta` and on `group_map`. -/
def buildG2Vids (keys : List Nat) (gm : List (Nat × Chars)) :
    List (Chars × List Nat) :=
  keys.foldl (fun acc v => bucketsAdd acc (gkeyOf gm v) v) []

/-- Insertion into a sorted list of naturals. -/
def insNat (x : Nat) : List Nat → List Nat
  | [] => [x]
  | y :: rest => if y ≤ x then y :: insNat x rest else x :: y :: rest

/-- Source `sorted(vids)`. -/
def sortNats (l : List Nat) : List Nat := l.foldl (fun acc x => insNat x acc) []

/-- Source `(vmeta.get(v, {}).get("snm") or "")`. -/
def snmOf (vm : List (Nat × VMeta)) (v : Nat) : Chars :=
  match lookupA vm v with
  | some p => p.snm
  | none => []

/-- The leader-selection loop of `_broadcast_snm`: the first member (in
ascending order) with a non-empty stripped short name, returned stripped;
`none` models `leader == ""`. -/
def findLeader (vm : List (Nat × VMeta)) : List Nat → Option Chars
  | [] => none
  | v :: rest =>
    let s := pyStrip (snmOf vm v)
    if s ≠ [] then some s else findLeader vm rest

/-- Source `vmeta[v]["snm"] = leader`, guarded by the emptiness test of the fill
loop (`if not (…snm…).strip()`). -/
def fillOne (vm : List (Nat × VMeta)) (v : Nat) (leader : Chars) :
    List (Nat × VMeta) :=
  vm.map (fun kv =>
    if kv.1 = v && pyStrip kv.2.snm = [] then
      (kv.1, { kv.2 with snm := leader })
    else kv)

/-- The body of the per-group loop of `_broadcast_snm`. -/
def fillGroup (vm : List (Nat × VMeta)) (vids : List Nat) :
    List (Nat × VMeta) :=
  match findLeader vm (sortNats vids) with
  | none => vm
  | some leader => vids.foldl (fun acc v => fillOne acc v leader) vm

/-- Source `ABCCleaner._broadcast_snm` (the source mutates `vmeta` in place; here
the updated map is returned). -/
def broadcastSnm (vm : List (Nat × VMeta)) (gm : List (Nat × Chars)) :
    List (Nat × VMeta) :=
  (buildG2Vids (keysA vm) gm).foldl (fun acc b => fillGroup acc b.2) vm

/-! ## cleaner.py — `_render_tagged_v_header` -/

/-- Lower-case ASCII letter test (the regex class `[a-z]`). -/
def lowAlpha (c : Char) : Bool := 'a' ≤ c && c ≤ 'z'

/-- The clef truncation of `_render_tagged_v_header`: full match of
`([a-z]+)([+-]\d+)?$` against the stripped lower-cased clef keeps the
first four letters plus the octave suffix; otherwise the raw clef is
truncated to four characters.  (Backtracking cannot rescue a failed
greedy match here: a shorter letter run leaves a letter where `[+-]` or
the end is required.) -/
def truncClef (rawClef : Chars) : Chars :=
  if rawClef = [] then []
  else
    let base := rawClef.takeWhile lowAlpha
    let rest := rawClef.dropWhile lowAlpha
    let matched : Option Chars :=
      if base = [] then none
      else
        match rest with
        | [] => some []
        | c :: r =>
          if c = '+' || c = '-' then
            let ds := r.takeWhile pyDigit
            if ds ≠ [] && r.dropWhile pyDigit = [] then some (c :: ds) else none
          else none
    match matched with
    | some octv => base.take 4 ++ octv
    | none => rawClef.take 4

/-- One line of `_render_tagged_v_header`'s output. -/
def renderVLine (gm : List (Nat × Chars)) (vid : Nat) (meta : VMeta) : Chars :=
  let rawClef := pyLower (pyStrip meta.clef)
  let clef := truncClef rawClef
  let tran := meta.transpose
  let snm := meta.snm.filter (fun c => c ≠ ' ')
  let gkey := gkeyOf gm vid
  let parts :=
    [cs "V:" ++ natToChars vid]
      ++ (if clef ≠ [] then [clef] else [])
      ++ [intToChars tran]
      ++ (if snm ≠ [] then [snm] else [])
      ++ [gkey]
  joinSep (cs " ") parts

/-- Source `ABCCleaner._render_tagged_v_header`: one line per voice id,
ascending. -/
def renderTaggedVHeader (vm : List (Nat × VMeta)) (gm : List (Nat × Chars)) :
    List Chars :=
  (sortNats (keysA vm)).map (fun vid =>
    renderVLine gm vid ((lookupA vm vid).getD ⟨[], 0, [], []⟩))

example : truncClef (cs "treble+8") = cs "treb+8" := by decide
example : truncClef (cs "tre8") = cs "tre8" := by decide
example : truncClef (cs "bass") = cs "bass" := by decide
example :
    broadcastSnm [(1, ⟨cs "treble", 0, cs "Flute", cs "Fl."⟩),
                  (2, ⟨cs "treble", 0, cs "Oboe", []⟩)]
        [(1, cs "(1|2)"), (2, cs "(1|2)")] =
      [(1, ⟨cs "treble", 0, cs "Flute", cs "Fl."⟩),
       (2, ⟨cs "treble", 0, cs "Oboe", cs "Fl."⟩)] := by decide

/-! ## cleaner.py — `_inject_first_line_tags` -/

/-- Source `_V_TAGGED_SEG_RE.match(seg)`: the anchored pattern `\[V:\s*(\d+)\]`,
returning the voice id. -/
def matchVSeg (seg : Chars) : Option Nat :=
  match seg with
  | '[' :: 'V' :: ':' :: rest =>
    let r := rest.dropWhile pySpace
    let ds := r.takeWhile pyDigit
    match r.dropWhile pyDigit with
    | ']' :: _ => if ds ≠ [] then some (digitsToNat ds) else none
    | _ => none
  | _ => none

/-- The anchored marker pattern with its matched text and the remainder of
the input (used to reproduce `finditer` spans). -/
def matchVSegAt (s : Chars) : Option (Chars × Chars) :=
  match s with
  | '[' :: 'V' :: ':' :: rest =>
    let ws := rest.takeWhile pySpace
    let r := rest.dropWhile pySpace
    let ds := r.takeWhile pyDigit
    match r.dropWhile pyDigit with
    | ']' :: tail =>
      if ds ≠ [] then some ('[' :: 'V' :: ':' :: (ws ++ ds ++ [']']), tail)
      else none
    | _ => none
  | _ => none

/-- The `parts` construction of `_inject_first_line_tags`: the line is cut
at every marker match (`finditer`), keeping non-empty between-text
verbatim.  Fuel-driven left-to-right scan (each step consumes at least one
character). -/
def splitSegsAux : Nat → Chars → Chars → List Chars
  | 0, pending, rest =>
    (if pending ≠ [] then [pending.reverse] else [])
      ++ (if rest ≠ [] then [rest] else [])
  | fuel + 1, pending, s =>
    match matchVSegAt s with
    | some (mtxt, rest) =>
      (if pending ≠ [] then [pending.reverse] else [])
        ++ mtxt :: splitSegsAux fuel [] rest
    | none =>
      match s with
      | [] => if pending ≠ [] then [pending.reverse] else []
      | c :: tail => splitSegsAux fuel (c :: pending) tail

/-- The `parts` list of `_inject_first_line_tags`. -/
def splitSegs (line : Chars) : List Chars :=
  splitSegsAux (line.length + 1) [] line

/-- Concatenation of parts (`''.join`). -/
def concatAll (l : List Chars) : Chars := l.foldr (fun a b => a ++ b) []

/-- The extracted header values handed to `_inject_first_line_tags`
(`vmeta` and `group_map` are also passed in the source but are unused in
the function body). -/
structure InjectCtx where
  qVal : Option Chars
  mVal : Option Chars
  kDefault : Option Chars
  perc : List (Nat × PercEntry)
deriving DecidableEq, Repr

/-- The key part of the injected tag list for one marker:
`perc_k` overrides everything; otherwise a `[K:` occurring anywhere in
`seg_tail` suppresses injection; otherwise the extracted default key is
injected if present. -/
def kPartFor (ctx : InjectCtx) (vid : Nat) (segTail : Chars) : Chars :=
  let hasInlineK := containsSub segTail (cs "[K:")
  let percK : Option Chars :=
    match lookupA ctx.perc vid with
    | some e => if e.kList ≠ [] then some (cs "none") else none
    | none => none
  match percK with
  | some pk => cs "[K:" ++ pk ++ [']']
  | none =>
    if !hasInlineK then
      match ctx.kDefault with
      | some d => cs "[K:" ++ d ++ [']']
      | none => []
    else []

/-- The `[I:percmap …]` part of the injected tag list for one marker. -/
def iPartFor (ctx : InjectCtx) (vid : Nat) : Chars :=
  match lookupA ctx.perc vid with
  | some e => concatAll (e.iList.map (fun il => '[' :: (il ++ [']'])))
  | none => []

/-- Key and percussion-map injection for one marker. -/
def kiPartFor (ctx : InjectCtx) (vid : Nat) (segTail : Chars) : Chars :=
  kPartFor ctx vid segTail ++ iPartFor ctx vid

/-- The `while` loop of `_inject_first_line_tags`, threading the
`first_q_done` / `m_done` flags; `seg_tail` is the following part
(`parts[i+1]` or `""`). -/
def injectAux (ctx : InjectCtx) : Bool → Bool → List Chars → List Chars
  | _, _, [] => []
  | fq, fm, seg :: rest =>
    match matchVSeg seg with
    | some vid =>
      let doQ := !fq && ctx.qVal.isSome && vid == 1
      let qInj := if doQ then cs "[Q:" ++ ctx.qVal.getD [] ++ [']'] else []
      let doM := !fm && ctx.mVal.isSome && vid == 1
      let mInj := if doM then cs "[M:" ++ ctx.mVal.getD [] ++ [']'] else []
      let segTail := rest.headD []
      (seg ++ qInj ++ mInj ++ kiPartFor ctx vid segTail)
        :: injectAux ctx (fq || doQ) (fm || doM) rest
    | none => seg :: injectAux ctx fq fm rest

/-- Source `ABCCleaner._inject_first_line_tags`. -/
def injectFirstLineTags (ctx : InjectCtx) (line : Chars) : Chars :=
  concatAll (injectAux ctx false false (splitSegs line))

example : splitSegs (cs "[V:1]abc|[V:2]def|") =
    [cs "[V:1]", cs "abc|", cs "[V:2]", cs "def|"] := by decide
example :
    injectFirstLineTags ⟨some (cs "1/4=100"), some (cs "2/4"), some (cs "C"), []⟩
      (cs "[V:1]abc|[V:2]def") =
    cs "[V:1][Q:1/4=100][M:2/4][K:C]abc|[V:2][K:C]def" := by decide
example :
    injectFirstLineTags ⟨none, none, some (cs "C"), []⟩ (cs "[V:1]ab[K:D]cd") =
    cs "[V:1]ab[K:D]cd" := by decide

/-! ## cleaner.py — `_strip_floating_q` and `encode` -/

/-- The pattern `\[Q:[^\]]+\]` tried at one position, with its matched
text and the remainder. -/
def matchQTagAt (s : Chars) : Option (Chars × Chars) :=
  if leadsWith (cs "[Q:") s then
    let body := (s.drop 3).takeWhile (fun c => c ≠ ']')
    match (s.drop 3).dropWhile (fun c => c ≠ ']') with
    | ']' :: tail => if body ≠ [] then some (cs "[Q:" ++ body ++ [']'], tail) else none
    | _ => none
  else none

/-- Source `_V_INLINE_Q_RE = (\[V:\s*\d+\])\s*(\[Q:[^\]]+\])` tried at one
position, already rewritten to the protected replacement
`group(1) + "<QPROTECTED>" + group(2)[1:-1] + "</QPROTECTED>"`. -/
def matchVQAt (s : Chars) : Option (Chars × Chars) :=
  match matchVSegAt s with
  | some (vtxt, rest1) =>
    match matchQTagAt (rest1.dropWhile pySpace) with
    | some (qtxt, rest3) =>
      some (vtxt ++ cs "<QPROTECTED>" ++ (qtxt.drop 1).dropLast
              ++ cs "</QPROTECTED>", rest3)
    | none => none
  | none => none

/-- Global left-to-right `re.sub` with the protected `[V:n][Q:…]`
replacement (fuel-driven; each step consumes at least one character). -/
def subVQAux : Nat → Chars → Chars
  | 0, s => s
  | fuel + 1, s =>
    match matchVQAt s with
    | some (rep, rest) => rep ++ subVQAux fuel rest
    | none =>
      match s with
      | [] => []
      | c :: tail => c :: subVQAux fuel tail

/-- Source `_V_INLINE_Q_RE.sub(protect, line)`. -/
def subVQ (s : Chars) : Chars := subVQAux s.length s

/-- Source `_ANY_Q_INLINE_RE.sub('', s)`: drop every `[Q:…]` tag. -/
def subQDropAux : Nat → Chars → Chars
  | 0, s => s
  | fuel + 1, s =>
    match matchQTagAt s with
    | some (_, rest) => subQDropAux fuel rest
    | none =>
      match s with
      | [] => []
      | c :: tail => c :: subQDropAux fuel tail

/-- Source `_ANY_Q_INLINE_RE.sub('', s)`. -/
def subQDrop (s : Chars) : Chars := subQDropAux s.length s

/-- Python `str.replace(pat, rep)`: non-overlapping, left to right
(fuel-driven; `pat` is non-empty at every call site). -/
def replaceAllAux : Nat → Chars → Chars → Chars → Chars
  | 0, _, _, s => s
  | fuel + 1, pat, rep, s =>
    if leadsWith pat s then rep ++ replaceAllAux fuel pat rep (s.drop pat.length)
    else
      match s with
      | [] => []
      | c :: tail => c :: replaceAllAux fuel pat rep tail

/-- Python `str.replace(pat, rep)` for non-empty `pat`. -/
def replaceAll (pat rep s : Chars) : Chars := replaceAllAux s.length pat rep s

/-- Source `ABCCleaner._strip_floating_q`: protect `[V:n][Q:…]` pairs, drop all
remaining `[Q:…]`, then restore the protected brackets. -/
def stripFloatingQ (line : Chars) : Chars :=
  replaceAll (cs "</QPROTECTED>") (cs "]")
    (replaceAll (cs "<QPROTECTED>") (cs "[") (subQDrop (subVQ line)))

/-- Source `_shorten_clef`: `text.replace("treble", "treb")`. -/
def shortenClef (text : Chars) : Chars := replaceAll (cs "treble") (cs "treb") text

/-- The return type of `ABCCleaner.encode` (`@dataclass Encoded`). -/
structure Encoded where
  text : Chars
deriving DecidableEq, Repr

/-- Source `ABCCleaner.encode` after the initial `_shorten_clef` + EOL
normalisation (split out so the preprocessing step can be stated on its
own). -/
def encodeAfterPre (text : Chars) : Encoded :=
  let lines := (splitNl text).filter (fun ln => pyStrip ln ≠ [])
  let hb := splitHeaderBars lines
  let header := hb.1.filter (fun ln => !leadsWith (cs "L:1/8") ln)
  let bars := hb.2
  let qVal := pickOnce header matchQ
  let mVal := pickOnce header matchM
  let kVal := pickOnce header matchK
  let scoreBody := pickOnce header matchScore
  let vp := collectVAndPercmap header
  let groupMap :=
    match scoreBody with
    | some sb => if sb ≠ [] then buildGroupMap sb else []
    | none => []
  let vmeta := broadcastSnm vp.1 groupMap
  let compactHeader := renderTaggedVHeader vmeta groupMap
  let bars :=
    match bars with
    | [] => []
    | first :: rest =>
      injectFirstLineTags ⟨qVal, mVal, kVal, vp.2⟩ first :: rest
  let bars := bars.map stripFloatingQ
  let bars := bars.map (fun ln => ln.filter (fun c => !pySpace c))
  ⟨joinNl (compactHeader ++ bars)⟩

/-- Source `ABCCleaner.encode`. -/
def ABCCleaner.encode (abcText : Chars) : Encoded :=
  encodeAfterPre
    (replaceAll (cs "\r") (cs "\n")
      (replaceAll (cs "\r\n") (cs "\n") (shortenClef abcText)))

/-- Source `ABCCleaner.decode` (a passthrough in the source; the real decoder is
`restore_text_simple` in the restoration module). -/
def ABCCleaner.decode (cleanedText : Chars) : Chars := cleanedText

/-! ## mess.py — header/body split and the read-only Q/M/K probe -/

/-- The per-line header test of `split_head_body`:
`ln[0].isalpha() and ln[1:2] == ":"` (the line is already known to be
non-blank; a one-character line fails because `ln[1:2]` is `""`). -/
def isHeadSimple (ln : Chars) : Bool :=
  match ln with
  | c0 :: c1 :: _ => pyAlpha c0 && c1 = ':'
  | _ => false

/-- The loop of `split_head_body` over `abc.splitlines()`: blank lines are
skipped, every other line is classified independently. -/
def splitHeadBodyAux : List Chars → List Chars × List Chars
  | [] => ([], [])
  | ln :: rest =>
    let hb := splitHeadBodyAux rest
    if pyStrip ln = [] then hb
    else if isHeadSimple ln then (ln :: hb.1, hb.2)
    else (hb.1, ln :: hb.2)

/-- Source `split_head_body`. -/
def splitHeadBody (abc : Chars) : List Chars × List Chars :=
  splitHeadBodyAux (pySplitlines abc)

/-- The bracketed-tag pattern `pre ++ [^\]]+ ++ "]"` tried at one
position; returns the body (the `[^\]]+` capture). -/
def matchBrTagAt (pre : Chars) (s : Chars) : Option Chars :=
  if leadsWith pre s then
    let body := (s.drop pre.length).takeWhile (fun c => c ≠ ']')
    match (s.drop pre.length).dropWhile (fun c => c ≠ ']') with
    | ']' :: _ => if body ≠ [] then some body else none
    | _ => none
  else none

/-- Source `RE_TAG_Q.search(ln)` followed by `group(0)[1:-1]`. -/
def searchQTag (ln : Chars) : Option Chars :=
  searchFrom (fun s => (matchBrTagAt (cs "[Q:") s).map (fun b => cs "Q:" ++ b)) ln

/-- Source `RE_TAG_M.search(ln)` followed by `group(0)[1:-1]`. -/
def searchMTag (ln : Chars) : Option Chars :=
  searchFrom (fun s => (matchBrTagAt (cs "[M:") s).map (fun b => cs "M:" ++ b)) ln

/-- Source `RE_TAG_K.search(ln)`, returning `group(1)`. -/
def searchKTag (ln : Chars) : Option Chars :=
  searchFrom (matchBrTagAt (cs "[K:")) ln

/-- The loop of `probe_qmk_from_body`, threading the three found-so-far
values; the early `break` fires when all three are set.  Every value ever
stored is a non-empty string, so Python's truthiness test coincides with
`isSome`. -/
def probeGo (q m k : Option Chars) : List Chars → Option Chars × Option Chars × Option Chars
  | [] => (q, m, k)
  | ln :: rest =>
    let q' := match q with | some _ => q | none => searchQTag ln
    let m' := match m with | some _ => m | none => searchMTag ln
    let k' :=
      match k with
      | some _ => k
      | none =>
        match searchKTag ln with
        | some kv =>
          let kval := pyStrip kv
          if pyLower kval ≠ cs "none" then some (cs "K:" ++ kval) else none
        | none => none
    if q'.isSome && m'.isSome && k'.isSome then (q', m', k')
    else probeGo q' m' k' rest

/-- Source `probe_qmk_from_body`. -/
def probeQmkFromBody (body : List Chars) :
    Option Chars × Option Chars × Option Chars :=
  probeGo none none none body

example : probeQmkFromBody [cs "[V:1][Q:1/4=120][M:4/4][K:C]ab"] =
    (some (cs "Q:1/4=120"), some (cs "M:4/4"), some (cs "K:C")) := by decide
example : probeQmkFromBody [cs "[K:none]x", cs "[K:Eb]y"] =
    (none, none, some (cs "K:Eb")) := by decide
example : probeQmkFromBody [cs "[K:none][K:C]"] = (none, none, none) := by decide

/-! ## mess.py — `parse_vdefs_simple` -/

/-- Split on a single character, keeping empty segments
(Python `str.split(c)`). -/
def splitOnChar (sep : Char) : Chars → List Chars
  | [] => [[]]
  | c :: rest =>
    if c = sep then [] :: splitOnChar sep rest
    else
      match splitOnChar sep rest with
      | h :: t => (c :: h) :: t
      | [] => [[c]]

/-- Source `CLEF_MAP.get(clef.lower(), clef)`. -/
def clefMapGet (lowered orig : Chars) : Chars :=
  if lowered = cs "treb" then cs "treble"
  else if lowered = cs "treble" then cs "treble"
  else if lowered = cs "alto" then cs "alto"
  else if lowered = cs "bass" then cs "bass"
  else if lowered = cs "perc" then cs "perc"
  else orig

/-- A parsed compact voice line (`@dataclass VDef`). -/
structure VDef where
  vid : Int
  clef : Chars
  transpose : Int
  name : Chars
  group : Option Chars
deriving DecidableEq, Repr

/-- Source `int(vraw.split(":")[1])`, `none` where Python raises (caught by the
bare `except: continue`). -/
def vidOf (vraw : Chars) : Option Int :=
  match splitOnChar ':' vraw with
  | _ :: second :: _ => pyIntParse second
  | _ => none

/-- Python `s.endswith(pat)`. -/
def trailsWith (pat s : Chars) : Bool := leadsWith pat.reverse s.reverse

/-- The per-line parse of `parse_vdefs_simple`: 5-field split, 4-field
fallback, clef canonicalisation, transpose fallback 0, and the
group-shape validation. -/
def parseVDefLine (ln : Chars) : Option VDef :=
  if leadsWith (cs "V:") ln then
    let parts := pySplitMax ln 4
    let fields : Option (Chars × Chars × Chars × Chars × Option Chars) :=
      if parts.length < 5 then
        match pySplitMax ln 3 with
        | [vraw, clef, trp, name] => some (vraw, clef, trp, name, none)
        | _ => none
      else
        match parts with
        | [vraw, clef, trp, name, grp] => some (vraw, clef, trp, name, some grp)
        | _ => none
    match fields with
    | none => none
    | some (vraw, clef, trp, name, grpO) =>
      match vidOf vraw with
      | none => none
      | some vid =>
        let clefN := clefMapGet (pyLower clef) clef
        let trpI := (pyIntParse trp).getD 0
        let grp := pyStrip (grpO.getD [])
        let grpOk :=
          (leadsWith (cs "(") grp && trailsWith (cs ")") grp)
            || (leadsWith (cs "\x7b") grp && trailsWith (cs "\x7d") grp)
        let grp := if grp ≠ [] && !grpOk then [] else grp
        some ⟨vid, clefN, trpI, name, if grp = [] then none else some grp⟩
  else none

/-- Stable insertion (ascending by `vid`) used to model `list.sort(key=…)`. -/
def insVDef (x : VDef) : List VDef → List VDef
  | [] => [x]
  | y :: rest => if y.vid ≤ x.vid then y :: insVDef x rest else x :: y :: rest

/-- Source `out.sort(key=lambda x: x.vid)` (stable). -/
def sortVDefs (l : List VDef) : List VDef :=
  l.foldl (fun acc x => insVDef x acc) []

/-- Source `parse_vdefs_simple`. -/
def parseVdefsSimple (lines : List Chars) : List VDef :=
  sortVDefs (lines.filterMap parseVDefLine)

example : parseVDefLine (cs "V:1 treb 0 {1|2}") =
    some ⟨1, cs "treble", 0, cs "{1|2}", none⟩ := by decide
example : parseVDefLine (cs "V:17 bass -12 Cb. (17|18)") =
    some ⟨17, cs "bass", -12, cs "Cb.", some (cs "(17|18)")⟩ := by decide
example : parseVDefLine (cs "V:2 perc 0 Dr. x") =
    some ⟨2, cs "perc", 0, cs "Dr.", none⟩ := by decide

/-! ## mess.py — score reassembly -/

/-- Source `_split_top_level_pipes`: split on `|` only at bracket level 0
(levels from `(`/`{` vs `)`/`}`); tokens are stripped, empties dropped. -/
def splitTopPipesAux (lvl : Int) (buf : Chars) : Chars → List Chars
  | [] =>
    let tok := pyStrip buf.reverse
    if tok ≠ [] then [tok] else []
  | c :: rest =>
    if c = '(' || c = '{' then splitTopPipesAux (lvl + 1) (c :: buf) rest
    else if c = ')' || c = '}' then splitTopPipesAux (lvl - 1) (c :: buf) rest
    else if c = '|' && lvl = 0 then
      let tok := pyStrip buf.reverse
      (if tok ≠ [] then [tok] else []) ++ splitTopPipesAux 0 [] rest
    else splitTopPipesAux lvl (c :: buf) rest

/-- Source `_split_top_level_pipes`. -/
def splitTopPipes (s : Chars) : List Chars := splitTopPipesAux 0 [] s

/-- Python `s[1:-1]`. -/
def dropEnds (s : Chars) : Chars := (s.drop 1).dropLast

/-- Source `[int(x) for x in inner.split("|") if x.strip().isdigit()]`. -/
def numsOfPipes (inner : Chars) : List Int :=
  (splitOnChar '|' inner).filterMap (fun x =>
    let t := pyStrip x
    if t ≠ [] && t.all pyDigit then some (Int.ofNat (digitsToNat t)) else none)

/-- Source `_norm_paren_token`. -/
def normParenToken (s : Chars) : Chars :=
  let inner := pyStrip (dropEnds (pyStrip s))
  let nums := numsOfPipes inner
  match nums with
  | [] => cs "( )"
  | [n] => intToChars n
  | _ => cs "( " ++ joinSep (cs " ") (nums.map intToChars) ++ cs " )"

/-- One arm of `_norm_brace_token`. -/
def normBraceArm (arm : Chars) : Option Chars :=
  let a := pyStrip arm
  if a = [] then none
  else if leadsWith (cs "(") a && trailsWith (cs ")") a then some (normParenToken a)
  else
    let nums := (splitTopPipes a).filterMap (fun p =>
      let p := pyStrip p
      if p ≠ [] && p.all pyDigit then some (Int.ofNat (digitsToNat p)) else none)
    match nums with
    | [] => none
    | [n] => some (intToChars n)
    | _ => some (cs "( " ++ joinSep (cs " ") (nums.map intToChars) ++ cs " )")

/-- Source `_norm_brace_token`. -/
def normBraceToken (s : Chars) : Chars :=
  let inner := pyStrip (dropEnds (pyStrip s))
  let arms := (splitTopPipes inner).filterMap normBraceArm
  match arms with
  | [] => cs "{ }"
  | _ => cs "\x7b " ++ joinSep (cs " | ") arms ++ cs " \x7d"

/-- Source `_group_members`: the member ids of a `(…)` or `{…}` group string. -/
def groupMembers (s0 : Chars) : List Int :=
  let s := pyStrip s0
  if leadsWith (cs "(") s && trailsWith (cs ")") s then
    numsOfPipes (pyStrip (dropEnds s))
  else if leadsWith (cs "\x7b") s && trailsWith (cs "\x7d") s then
    let inner := pyStrip (dropEnds s)
    (splitTopPipes inner).foldl (fun ids arm =>
      let a := pyStrip arm
      if a = [] then ids
      else if leadsWith (cs "(") a && trailsWith (cs ")") a then
        ids ++ numsOfPipes (pyStrip (dropEnds a))
      else
        ids ++ (splitTopPipes a).filterMap (fun p =>
          let p := pyStrip p
          if p ≠ [] && p.all pyDigit then some (Int.ofNat (digitsToNat p)) else none))
      []
  else []

/-- Insertion into a sorted list of integers. -/
def insInt (x : Int) : List Int → List Int
  | [] => [x]
  | y :: rest => if y ≤ x then y :: insInt x rest else x :: y :: rest

/-- Source `sorted(ids)` for integers. -/
def sortInts (l : List Int) : List Int := l.foldl (fun acc x => insInt x acc) []

/-- Source `min(ids)` with the guard `if ids else v.vid` applied at the call
site. -/
def minInts (h : Int) (t : List Int) : Int := t.foldl min h

/-- Source `group_key(g)`: `"P:"`/`"B:"` plus the sorted member ids joined by
commas. -/
def groupKey (g : Chars) : Chars :=
  let ids := groupMembers g
  (if leadsWith (cs "(") g then cs "P:" else cs "B:")
    ++ joinSep (cs ",") ((sortInts ids).map intToChars)

/-- The loop state of `build_score_tokens_in_appearance`. -/
structure BuildState where
  seen : List Chars
  tokens : List Chars
  grouped : List Int
  repForNm : List (Int × Chars)
deriving DecidableEq, Repr

/-- The first loop of `build_score_tokens_in_appearance`: push each
not-yet-seen group, in order of first appearance. -/
def buildStep (st : BuildState) (v : VDef) : BuildState :=
  match v.group with
  | none => st
  | some g =>
    let key := groupKey g
    if key ∈ st.seen then st
    else
      let ids := groupMembers g
      let rep := match ids with | [] => v.vid | h :: t => minInts h t
      let tok := if leadsWith (cs "(") g then normParenToken g else normBraceToken g
      ⟨st.seen ++ [key], st.tokens ++ [tok],
       ids.foldl addElem st.grouped, updA st.repForNm rep g⟩

/-- Source `build_score_tokens_in_appearance`. -/
def buildScoreTokens (vdefs : List VDef) : List Chars × List (Int × Chars) :=
  let st := vdefs.foldl buildStep ⟨[], [], [], []⟩
  let singles := (vdefs.filter (fun v => v.vid ∉ st.grouped)).map (fun v => v.vid)
  let tokens := st.tokens ++ singles.map intToChars
  let repForNm := singles.foldl (fun m x => setdefaultA m x []) st.repForNm
  (tokens, repForNm)

/-- One reconstructed voice declaration line of `render_head`. -/
def renderHeadVLine (repForNm : List (Int × Chars)) (v : VDef) : Chars :=
  let fields :=
    [cs "V:" ++ intToChars v.vid, v.clef]
      ++ (if v.clef = cs "perc" then [cs "stafflines=1"] else [])
      ++ (if v.transpose ≠ 0 then [cs "transpose=" ++ intToChars v.transpose] else [])
      ++ (if (lookupA repForNm v.vid).isSome && v.name ≠ [] then
            [cs "nm=\"" ++ v.name ++ ['"'], cs "snm=\"" ++ v.name ++ ['"']]
          else [])
  joinSep (cs " ") fields

/-- Source `render_head`. -/
def renderHead (vdefs : List VDef) (bodyLines : List Chars) : List Chars :=
  let tr := buildScoreTokens vdefs
  let head0 := [cs "%%score " ++ joinSep (cs " ") tr.1, cs "L:1/8"]
  let qmk := probeQmkFromBody bodyLines
  let head := head0
    ++ (match qmk.1 with | some s => if s ≠ [] then [s] else [] | none => [])
    ++ (match qmk.2.1 with | some s => if s ≠ [] then [s] else [] | none => [])
    ++ (match qmk.2.2 with | some s => if s ≠ [] then [s] else [] | none => [])
  head ++ vdefs.map (renderHeadVLine tr.2)

/-- Source `restore_text_simple`. -/
def restoreTextSimple (abcCleaned : Chars) : Chars :=
  let hb := splitHeadBody abcCleaned
  let vdefs := parseVdefsSimple hb.1
  match vdefs with
  | [] =>
    joinNl (hb.1 ++ hb.2)
      ++ (if hb.1 ≠ [] || hb.2 ≠ [] then ['\n'] else [])
  | _ => joinNl (renderHead vdefs hb.2 ++ hb.2) ++ ['\n']

example : normBraceToken (cs "{(5|7|8)|(6|9|10)}") =
    cs "{ ( 5 7 8 ) | ( 6 9 10 ) }" := by decide
example : normBraceToken (cs "{1|2}") = cs "{ 1 | 2 }" := by decide
example : normParenToken (cs "(5|7|8)") = cs "( 5 7 8 )" := by decide
example : normParenToken (cs "(7)") = cs "7" := by decide
example : groupMembers (cs "{(5|7)|6}") = [5, 7, 6] := by decide
example : groupKey (cs "{(5|7)|6}") = cs "B:5,6,7" := by decide

/-! ## Claim C1 — round trip through encode and restore -/

/-- A document of the shape named by the round-trip property: voice 1
`clef=treble nm="Violin"`, voice 2 `clef=bass nm="Cello"`, layout
`%%score {1|2}`. -/
def docC1 : Chars :=
  cs "X:1\n%%score {1|2}\nV:1 clef=treble nm=\"Violin\"\nV:2 clef=bass nm=\"Cello\"\n[V:1]abc|[V:2]def|"

/-- C1, counterexample: for `docC1`, the decoder applied to the encoder's
output emits the layout directive `%%score 1 2` — ids 1 and 2 as bare
ungrouped tokens, not a brace group — and the string `Violin` appears
nowhere in the reconstruction, so the reconstructed voice-1 declaration
does not carry `nm="Violin"`. -/
theorem c1_counterexample :
    (pySplitlines (restoreTextSimple (ABCCleaner.encode docC1).text)).headD []
        = cs "%%score 1 2"
      ∧ containsSub (restoreTextSimple (ABCCleaner.encode docC1).text)
          (cs "Violin") = false := by
  constructor
  · decide
  · decide

/-- C1, amended: for the document `docC1` (voice 1 treble `nm="Violin"`,
voice 2 bass `nm="Cello"`, grouped by `%%score {1|2}`), the decoder
applied to the encoder's output reconstructs a document whose layout
directive lists ids 1 and 2 as bare singleton tokens and whose voice-1
declaration carries `nm="{1|2}"`: the encoder drops `nm` (only `snm` is
rendered, and both voices have none), so the compact voice line has four
fields and the decoder's degraded 4-field parse takes the group token as
the name, losing both the brace grouping and the name `Violin`. -/
theorem c1_roundtrip_amended :
    restoreTextSimple (ABCCleaner.encode docC1).text =
      cs "%%score 1 2\nL:1/8\nV:1 treble nm=\"{1|2}\" snm=\"{1|2}\"\nV:2 bass nm=\"{1|2}\" snm=\"{1|2}\"\n[V:1]abc|[V:2]def|\n" := by
  decide

/-! ## Claim C10 — the `treble` → `treb` rewrite -/

/-- C10, counterexample: the input `X:1\ntreblele` has its single body
line rewritten to `treble` (the replacement `treb` re-joins with the
trailing `le`), so the encoder's output contains the substring `treble`,
contradicting the claim that no output line contains it. -/
theorem c10_counterexample :
    containsSub (ABCCleaner.encode (cs "X:1\ntreblele")).text (cs "treble")
      = true := by
  decide

/-- C10, amended: the encoder applies one left-to-right, non-overlapping
replacement of `treble` by `treb` to the whole text before any other
processing; a replacement may re-join with the following text to form a
new `treble`, so output lines can still contain the substring `treble`
(body lines containing it are altered beyond whitespace removal, as the
concrete case shows: the body line `treblele` becomes `treble`). -/
theorem c10_amended :
    (∀ s : Chars,
        ABCCleaner.encode s =
          encodeAfterPre (replaceAll (cs "\r") (cs "\n")
            (replaceAll (cs "\r\n") (cs "\n") (shortenClef s))))
      ∧ shortenClef (cs "treblele") = cs "treble"
      ∧ (ABCCleaner.encode (cs "X:1\ntreblele")).text = cs "treble" := by
  refine ⟨fun s => rfl, by decide, by decide⟩

/-! ## Claim C2 — header/body splitting on both paths -/

theorem splitHeaderBarsAux_true (l : List Chars) :
    splitHeaderBarsAux true l = ([], l) := by
  induction l with
  | nil => rfl
  | cons ln rest ih => simp [splitHeaderBarsAux, ih]

theorem splitHeaderBarsAux_false (l : List Chars) :
    splitHeaderBarsAux false l = (l.takeWhile isHeader, l.dropWhile isHeader) := by
  induction l with
  | nil => rfl
  | cons ln rest ih =>
    by_cases h : isHeader ln
    · simp [splitHeaderBarsAux, h, ih]
    · simp [splitHeaderBarsAux, h, splitHeaderBarsAux_true]

theorem splitHeadBodyAux_eq (L : List Chars) :
    splitHeadBodyAux L =
      ((L.filter (fun l => pyStrip l ≠ [])).filter isHeadSimple,
       (L.filter (fun l => pyStrip l ≠ [])).filter (fun l => !isHeadSimple l)) := by
  induction L with
  | nil => rfl
  | cons ln rest ih =>
    by_cases hb : pyStrip ln = []
    · simp [splitHeadBodyAux, hb, ih]
    · by_cases hh : isHeadSimple ln
      · simp [splitHeadBodyAux, hb, hh, ih]
      · simp [splitHeadBodyAux, hb, hh, ih]

/-- C2, counterexample: on the decode path, for the line sequence
`X:1`, `%%x`, `Y:1` — every one of which matches the claim's header
pattern, so the claim classifies all three as header and nothing as
body — the splitter `split_head_body` sends `%%x` to the body (the `%%`
rule is absent on this path) and still sends the later `Y:1` to the
header (headers resume after body). -/
theorem c2_counterexample :
    splitHeadBody (cs "X:1\n%%x\nY:1") = ([cs "X:1", cs "Y:1"], [cs "%%x"])
      ∧ splitHeadBody (cs "X:1\n%%x\nY:1")
          ≠ ([cs "X:1", cs "%%x", cs "Y:1"], ([] : List Chars)) := by
  constructor
  · decide
  · decide

/-- C2, amended: the two paths classify differently.  On the encode path
(`_split_header_bars`) the claimed rule holds with the header test applied
to the stripped line: the output is exactly the take-while/drop-while
split at the first line whose stripped text neither starts with a single
alphabetic character followed by `:` nor starts with `%%` — order
preserved, no line lost.  On the decode path (`split_head_body`) each
non-blank line is classified independently: it goes to the header exactly
when its first character is alphabetic and its second is `:` (so `%%`
lines always go to the body, and a header-shaped line after a body line
still goes to the header); order is preserved within each part and only
blank lines are dropped. -/
theorem c2_amended :
    (∀ lines : List Chars,
        splitHeaderBars lines =
          (lines.takeWhile isHeader, lines.dropWhile isHeader))
      ∧ (∀ abc : Chars,
          splitHeadBody abc =
            (((pySplitlines abc).filter (fun l => pyStrip l ≠ [])).filter isHeadSimple,
             ((pySplitlines abc).filter (fun l => pyStrip l ≠ [])).filter
               (fun l => !isHeadSimple l))) := by
  constructor
  · intro lines
    exact splitHeaderBarsAux_false lines
  · intro abc
    exact splitHeadBodyAux_eq (pySplitlines abc)

/-! ## Claim C4 — the read-only Q/M/K probe -/

/-- Specification-side scan: the first inline tempo tag in document order
(first line containing one, leftmost occurrence in that line). -/
def specFirstQ : List Chars → Option Chars
  | [] => none
  | ln :: rest =>
    match searchQTag ln with
    | some v => some v
    | none => specFirstQ rest

/-- Specification-side scan: the first inline meter tag in document
order. -/
def specFirstM : List Chars → Option Chars
  | [] => none
  | ln :: rest =>
    match searchMTag ln with
    | some v => some v
    | none => specFirstM rest

/-- Specification-side scan for the key with the probe's per-line rule:
only the leftmost key tag of each line is examined, and a `none` value
makes the scan move to the next line. -/
def specFirstK : List Chars → Option Chars
  | [] => none
  | ln :: rest =>
    match searchKTag ln with
    | some kv =>
      let kval := pyStrip kv
      if pyLower kval ≠ cs "none" then some (cs "K:" ++ kval) else specFirstK rest
    | none => specFirstK rest

theorem probeGo_all_some (a b c : Chars) (l : List Chars) :
    probeGo (some a) (some b) (some c) l = (some a, some b, some c) := by
  cases l <;> rfl

theorem probeGo_cons (q m k : Option Chars) (ln : Chars) (rest : List Chars) :
    probeGo q m k (ln :: rest) =
      probeGo (match q with | some _ => q | none => searchQTag ln)
        (match m with | some _ => m | none => searchMTag ln)
        (match k with
          | some _ => k
          | none =>
            match searchKTag ln with
            | some kv =>
              if pyLower (pyStrip kv) ≠ cs "none" then some (cs "K:" ++ pyStrip kv)
              else none
            | none => none)
        rest := by
  simp only [probeGo]
  split
  · next h =>
    simp only [Bool.and_eq_true, Option.isSome_iff_exists] at h
    obtain ⟨⟨⟨a, ha⟩, b, hb⟩, c, hc⟩ := h
    rw [ha, hb, hc, probeGo_all_some]
  · rfl

theorem probeGo_eq (lines : List Chars) :
    ∀ q m k : Option Chars,
      probeGo q m k lines =
        ((match q with | some _ => q | none => specFirstQ lines),
         (match m with | some _ => m | none => specFirstM lines),
         (match k with | some _ => k | none => specFirstK lines)) := by
  induction lines with
  | nil => intro q m k; cases q <;> cases m <;> cases k <;> rfl
  | cons ln rest ih =>
    intro q m k
    rw [probeGo_cons, ih]
    simp only [Prod.mk.injEq]
    refine ⟨?_, ?_, ?_⟩
    · cases q with
      | some a => rfl
      | none => cases hq : searchQTag ln <;> simp [specFirstQ, hq]
    · cases m with
      | some a => rfl
      | none => cases hm : searchMTag ln <;> simp [specFirstM, hm]
    · cases k with
      | some a => rfl
      | none =>
        cases hk : searchKTag ln with
        | none => simp [specFirstK, hk]
        | some u =>
          by_cases hcond : pyLower (pyStrip u) ≠ cs "none" <;>
            simp [specFirstK, hk, hcond]

/-- C4, counterexample: for the single body line `[K:none][K:C]` the probe
returns no key at all, although the next key tag in document order after
the ignored `[K:none]` is `[K:C]`: only the leftmost key tag of each line
is ever examined, so a `none`-valued tag hides every later key tag on the
same line. -/
theorem c4_counterexample :
    probeQmkFromBody [cs "[K:none][K:C]"] = (none, none, none)
      ∧ (probeQmkFromBody [cs "[K:none][K:C]"]).2.2 ≠ some (cs "K:C") := by
  constructor
  · decide
  · decide

/-- C4, amended: the probe returns the first inline tempo tag and the
first inline meter tag in document order, and for the key it examines only
the leftmost key tag of each line, ignoring a `none` value by resuming the
search on the following line (so a non-`none` key tag later on the same
line is skipped); probing a longer body cannot change these values, which
also captures the early stop once all three are found. -/
theorem c4_amended (body : List Chars) :
    probeQmkFromBody body = (specFirstQ body, specFirstM body, specFirstK body) :=
  probeGo_eq body none none none


/-! ## Association-list lemmas -/

theorem keysA_nil {κ α : Type} : keysA ([] : List (κ × α)) = [] := rfl

theorem keysA_cons {κ α : Type} (kv : κ × α) (rest : List (κ × α)) :
    keysA (kv :: rest) = kv.1 :: keysA rest := rfl

theorem keysA_append {κ α : Type} (a b : List (κ × α)) :
    keysA (a ++ b) = keysA a ++ keysA b := by
  simp [keysA]

theorem updA_cons_eq {κ α : Type} [DecidableEq κ] (k : κ) (v v' : α)
    (rest : List (κ × α)) : updA ((k, v') :: rest) k v = (k, v) :: rest := by
  simp [updA]

theorem updA_cons_ne {κ α : Type} [DecidableEq κ] {k k' : κ} (hne : k' ≠ k)
    (v v' : α) (rest : List (κ × α)) :
    updA ((k', v') :: rest) k v = (k', v') :: updA rest k v := by
  simp [updA, hne]

theorem lookupA_cons_eq {κ α : Type} [DecidableEq κ] (k : κ) (v : α)
    (rest : List (κ × α)) : lookupA ((k, v) :: rest) k = some v := by
  simp [lookupA]

theorem lookupA_cons_ne {κ α : Type} [DecidableEq κ] {k k' : κ} (hne : k' ≠ k)
    (v : α) (rest : List (κ × α)) :
    lookupA ((k', v) :: rest) k = lookupA rest k := by
  simp [lookupA, hne]

theorem lookupA_eq_none {κ α : Type} [DecidableEq κ] (m : List (κ × α)) (k : κ) :
    lookupA m k = none ↔ k ∉ keysA m := by
  induction m with
  | nil => simp [lookupA, keysA]
  | cons kv rest ih =>
    obtain ⟨k', v'⟩ := kv
    by_cases h : k' = k
    · subst h
      rw [lookupA_cons_eq, keysA_cons]
      simp
    · rw [lookupA_cons_ne h, keysA_cons]
      simp only [List.mem_cons, ih]
      have hne : k ≠ k' := fun he => h he.symm
      tauto

theorem mem_keys_updA {κ α : Type} [DecidableEq κ] (m : List (κ × α)) (k n : κ)
    (v : α) : n ∈ keysA (updA m k v) ↔ n ∈ keysA m ∨ n = k := by
  induction m with
  | nil => simp [updA, keysA]
  | cons kv rest ih =>
    obtain ⟨k', v'⟩ := kv
    by_cases h : k' = k
    · subst h
      rw [updA_cons_eq, keysA_cons, keysA_cons]
      simp only [List.mem_cons]
      tauto
    · rw [updA_cons_ne h, keysA_cons, keysA_cons]
      simp only [List.mem_cons, ih]
      tauto

theorem keysA_updA_of_mem {κ α : Type} [DecidableEq κ] (m : List (κ × α))
    (k : κ) (v : α) (h : k ∈ keysA m) : keysA (updA m k v) = keysA m := by
  induction m with
  | nil => simp [keysA] at h
  | cons kv rest ih =>
    obtain ⟨k', v'⟩ := kv
    by_cases hk : k' = k
    · subst hk
      rw [updA_cons_eq, keysA_cons, keysA_cons]
    · rw [keysA_cons] at h
      rcases List.mem_cons.1 h with h1 | h2
      · exact absurd h1.symm hk
      · rw [updA_cons_ne hk, keysA_cons, keysA_cons, ih h2]

theorem keysA_updA_of_not_mem {κ α : Type} [DecidableEq κ] (m : List (κ × α))
    (k : κ) (v : α) (h : k ∉ keysA m) :
    keysA (updA m k v) = keysA m ++ [k] := by
  induction m with
  | nil => simp [updA, keysA]
  | cons kv rest ih =>
    obtain ⟨k', v'⟩ := kv
    rw [keysA_cons] at h
    simp only [List.mem_cons] at h
    push_neg at h
    rw [updA_cons_ne (fun he => h.1 he.symm), keysA_cons, keysA_cons,
      ih h.2, List.cons_append]

theorem nodup_keys_updA {κ α : Type} [DecidableEq κ] (m : List (κ × α))
    (k : κ) (v : α) (h : (keysA m).Nodup) : (keysA (updA m k v)).Nodup := by
  by_cases hm : k ∈ keysA m
  · rw [keysA_updA_of_mem m k v hm]
    exact h
  · rw [keysA_updA_of_not_mem m k v hm]
    simp [List.nodup_append, h, hm]

theorem lookupA_updA_self {κ α : Type} [DecidableEq κ] (m : List (κ × α))
    (k : κ) (v : α) : lookupA (updA m k v) k = some v := by
  induction m with
  | nil => simp [updA, lookupA]
  | cons kv rest ih =>
    obtain ⟨k', v'⟩ := kv
    by_cases h : k' = k
    · subst h
      rw [updA_cons_eq, lookupA_cons_eq]
    · rw [updA_cons_ne h, lookupA_cons_ne h, ih]

theorem lookupA_updA_other {κ α : Type} [DecidableEq κ] (m : List (κ × α))
    (k n : κ) (v : α) (h : n ≠ k) : lookupA (updA m k v) n = lookupA m n := by
  induction m with
  | nil => simp [updA, lookupA, Ne.symm h]
  | cons kv rest ih =>
    obtain ⟨k', v'⟩ := kv
    by_cases hk : k' = k
    · subst hk
      rw [updA_cons_eq, lookupA_cons_ne (Ne.symm h), lookupA_cons_ne (Ne.symm h)]
    · by_cases hn : k' = n
      · subst hn
        rw [updA_cons_ne hk, lookupA_cons_eq, lookupA_cons_eq]
      · rw [updA_cons_ne hk, lookupA_cons_ne hn, lookupA_cons_ne hn, ih]

theorem mem_keys_setdefaultA {κ α : Type} [DecidableEq κ] (m : List (κ × α))
    (k n : κ) (v : α) :
    n ∈ keysA (setdefaultA m k v) ↔ n ∈ keysA m ∨ n = k := by
  unfold setdefaultA
  cases h : lookupA m k with
  | some w =>
    have hk : k ∈ keysA m := by
      by_contra hc
      rw [(lookupA_eq_none m k).2 hc] at h
      cases h
    constructor
    · exact Or.inl
    · rintro (hm | rfl)
      · exact hm
      · exact hk
  | none =>
    rw [keysA_append]
    simp [keysA]

theorem nodup_keys_setdefaultA {κ α : Type} [DecidableEq κ] (m : List (κ × α))
    (k : κ) (v : α) (h : (keysA m).Nodup) :
    (keysA (setdefaultA m k v)).Nodup := by
  unfold setdefaultA
  cases hl : lookupA m k with
  | some w => exact h
  | none =>
    have hk : k ∉ keysA m := (lookupA_eq_none m k).1 hl
    have hrw : keysA (m ++ [(k, v)]) = keysA m ++ [k] := by
      rw [keysA_append]
      rfl
    rw [hrw]
    exact h.append (List.nodup_singleton k) (fun a ha hb => by
      rw [List.mem_singleton] at hb
      subst hb
      exact hk ha)

theorem lookupA_append_left {κ α : Type} [DecidableEq κ] (a b : List (κ × α))
    (k : κ) (h : k ∈ keysA a) : lookupA (a ++ b) k = lookupA a k := by
  induction a with
  | nil => simp [keysA] at h
  | cons kv rest ih =>
    obtain ⟨k', v'⟩ := kv
    by_cases hk : k' = k
    · subst hk
      rw [List.cons_append, lookupA_cons_eq, lookupA_cons_eq]
    · rw [keysA_cons] at h
      rcases List.mem_cons.1 h with h1 | h2
      · exact absurd h1.symm hk
      · rw [List.cons_append, lookupA_cons_ne hk, lookupA_cons_ne hk, ih h2]

theorem lookupA_setdefaultA_other {κ α : Type} [DecidableEq κ]
    (m : List (κ × α)) (k n : κ) (v : α) (h : n ≠ k) :
    lookupA (setdefaultA m k v) n = lookupA m n := by
  unfold setdefaultA
  cases hl : lookupA m k with
  | some w => rfl
  | none =>
    induction m with
    | nil => simp [lookupA, Ne.symm h]
    | cons kv rest ih =>
      obtain ⟨k', v'⟩ := kv
      by_cases hn : k' = n
      · subst hn
        rw [List.cons_append, lookupA_cons_eq, lookupA_cons_eq]
      · rw [List.cons_append, lookupA_cons_ne hn, lookupA_cons_ne hn]
        by_cases hk : k' = k
        · subst hk
          rw [lookupA_cons_eq] at hl
          cases hl
        · rw [lookupA_cons_ne hk] at hl
          exact ih hl

/-! ## Lemmas about folds of `updA` and `setdefaultA` -/

theorem lookupA_foldl_updA_not_mem {κ α : Type} [DecidableEq κ]
    (l : List (κ × α)) (n : κ) :
    ∀ m : List (κ × α), n ∉ keysA l →
      lookupA (l.foldl (fun acc kv => updA acc kv.1 kv.2) m) n = lookupA m n := by
  induction l with
  | nil => intro m _; rfl
  | cons kv rest ih =>
    intro m hn
    rw [keysA_cons] at hn
    simp only [List.mem_cons] at hn
    push_neg at hn
    rw [List.foldl_cons, ih (updA m kv.1 kv.2) hn.2,
      lookupA_updA_other m kv.1 n kv.2 hn.1]

theorem lookupA_foldl_updA_mem {κ α : Type} [DecidableEq κ]
    (l : List (κ × α)) (n : κ) :
    ∀ m : List (κ × α), (keysA l).Nodup → n ∈ keysA l →
      lookupA (l.foldl (fun acc kv => updA acc kv.1 kv.2) m) n = lookupA l n := by
  induction l with
  | nil => intro m _ hn; simp [keysA] at hn
  | cons kv rest ih =>
    intro m hd hn
    obtain ⟨k, v⟩ := kv
    rw [keysA_cons] at hd hn
    have hd' := List.nodup_cons.1 hd
    rcases List.mem_cons.1 hn with h1 | h2
    · subst h1
      rw [List.foldl_cons, lookupA_foldl_updA_not_mem rest n _ hd'.1,
        lookupA_updA_self, lookupA_cons_eq]
    · have hne : n ≠ k := fun he => hd'.1 (he ▸ h2)
      rw [List.foldl_cons, ih _ hd'.2 h2, lookupA_cons_ne (Ne.symm hne)]

theorem mem_keys_foldl_updA {κ α : Type} [DecidableEq κ] (l : List (κ × α))
    (n : κ) :
    ∀ m : List (κ × α),
      n ∈ keysA (l.foldl (fun acc kv => updA acc kv.1 kv.2) m) ↔
        n ∈ keysA m ∨ n ∈ keysA l := by
  induction l with
  | nil => intro m; simp [keysA]
  | cons kv rest ih =>
    intro m
    rw [List.foldl_cons, keysA_cons]
    simp only [ih, mem_keys_updA, List.mem_cons]
    tauto

theorem nodup_keys_foldl_updA {κ α : Type} [DecidableEq κ] (l : List (κ × α)) :
    ∀ m : List (κ × α), (keysA m).Nodup →
      (keysA (l.foldl (fun acc kv => updA acc kv.1 kv.2) m)).Nodup := by
  induction l with
  | nil => intro m h; exact h
  | cons kv rest ih =>
    intro m h
    rw [List.foldl_cons]
    exact ih _ (nodup_keys_updA m kv.1 kv.2 h)

theorem mem_keys_flushNums (nums : List Nat) (n : Nat) (s : Chars) :
    ∀ m : List (Nat × Chars),
      n ∈ keysA (flushNums m nums s) ↔ n ∈ keysA m ∨ n ∈ nums := by
  induction nums with
  | nil => intro m; simp [flushNums]
  | cons x rest ih =>
    intro m
    show n ∈ keysA (flushNums (setdefaultA m x s) rest s) ↔ _
    rw [ih]
    simp only [mem_keys_setdefaultA, List.mem_cons]
    tauto

theorem nodup_keys_flushNums (nums : List Nat) (s : Chars) :
    ∀ m : List (Nat × Chars), (keysA m).Nodup →
      (keysA (flushNums m nums s)).Nodup := by
  induction nums with
  | nil => intro m h; exact h
  | cons x rest ih =>
    intro m h
    exact ih _ (nodup_keys_setdefaultA m x s h)

/-! ## Invariants of the `_build_group_map` walk -/

/-- Membership of an id anywhere in the walk state: in either output map
or in an open accumulator. -/
def stateHasNum (st : ScoreState) (n : Nat) : Prop :=
  n ∈ keysA st.pmap ∨ n ∈ keysA st.bmap ∨ ∃ node ∈ st.stack, n ∈ node.nums

theorem mem_addElem {α : Type} [DecidableEq α] (l : List α) (x n : α) :
    n ∈ addElem l x ↔ n ∈ l ∨ n = x := by
  unfold addElem
  by_cases h : x ∈ l
  · simp only [if_pos h]
    constructor
    · exact Or.inl
    · rintro (hn | rfl)
      · exact hn
      · exact h
  · simp [if_neg h]

theorem mem_unionNums (a b : List Nat) (n : Nat) :
    n ∈ unionNums a b ↔ n ∈ a ∨ n ∈ b := by
  induction b generalizing a with
  | nil => simp [unionNums]
  | cons x rest ih =>
    show n ∈ unionNums (addElem a x) rest ↔ _
    rw [ih]
    simp only [mem_addElem, List.mem_cons]
    tauto

/-- The maps of the walk state always have duplicate-free key lists. -/
def stateNodup (st : ScoreState) : Prop :=
  (keysA st.pmap).Nodup ∧ (keysA st.bmap).Nodup

theorem scoreStep_nodup (st : ScoreState) (tk : STok) (h : stateNodup st) :
    stateNodup (scoreStep st tk) := by
  obtain ⟨hp, hb⟩ := h
  cases tk with
  | openP => exact ⟨hp, hb⟩
  | openB => exact ⟨hp, hb⟩
  | pipe => exact ⟨hp, hb⟩
  | num n =>
    cases hs : st.stack with
    | cons top rest => simp only [scoreStep, hs]; exact ⟨hp, hb⟩
    | nil =>
      simp only [scoreStep, hs]
      exact ⟨nodup_keys_setdefaultA _ _ _ hp, hb⟩
  | closeP =>
    cases hs : st.stack with
    | nil => simp only [scoreStep, hs]; exact ⟨hp, hb⟩
    | cons node rest =>
      cases rest with
      | nil =>
        simp only [scoreStep, hs]
        by_cases hparen : node.isParen <;>
          simp only [hparen, if_pos, if_neg, Bool.false_eq_true, ite_true,
            ite_false] <;>
          exact ⟨by first | exact nodup_keys_flushNums _ _ _ hp | exact hp,
                 by first | exact nodup_keys_flushNums _ _ _ hb | exact hb⟩
      | cons parent rest' =>
        simp only [scoreStep, hs]
        by_cases hparen : node.isParen <;>
          simp only [hparen, Bool.false_eq_true, ite_true, ite_false] <;>
          exact ⟨by first | exact nodup_keys_flushNums _ _ _ hp | exact hp,
                 by first | exact nodup_keys_flushNums _ _ _ hb | exact hb⟩
  | closeB =>
    cases hs : st.stack with
    | nil => simp only [scoreStep, hs]; exact ⟨hp, hb⟩
    | cons node rest =>
      cases rest with
      | nil =>
        simp only [scoreStep, hs]
        by_cases hparen : node.isParen <;>
          simp only [hparen, Bool.false_eq_true, ite_true, ite_false] <;>
          exact ⟨by first | exact nodup_keys_flushNums _ _ _ hp | exact hp,
                 by first | exact nodup_keys_flushNums _ _ _ hb | exact hb⟩
      | cons parent rest' =>
        simp only [scoreStep, hs]
        by_cases hparen : node.isParen <;>
          simp only [hparen, Bool.false_eq_true, ite_true, ite_false] <;>
          exact ⟨by first | exact nodup_keys_flushNums _ _ _ hp | exact hp,
                 by first | exact nodup_keys_flushNums _ _ _ hb | exact hb⟩

theorem scoreRun_nodup (payload : Chars) : stateNodup (scoreRun payload) := by
  unfold scoreRun
  generalize scoreTokenize payload = toks
  have : ∀ (l : List STok) (st : ScoreState), stateNodup st →
      stateNodup (l.foldl scoreStep st) := by
    intro l
    induction l with
    | nil => intro st h; exact h
    | cons tk rest ih => intro st h; exact ih _ (scoreStep_nodup st tk h)
  exact this toks ⟨[], [], []⟩ ⟨List.nodup_nil, List.nodup_nil⟩

theorem scoreStep_closers (st : ScoreState) :
    scoreStep st .closeP = scoreStep st .closeB := rfl

theorem hasNum_closer (st : ScoreState) (n : Nat) (h : stateHasNum st n) :
    stateHasNum (scoreStep st .closeP) n := by
  obtain ⟨stack, pmap, bmap⟩ := st
  cases stack with
  | nil => exact h
  | cons node rest =>
    rcases h with hp | hb | ⟨nd, hmem, hnode⟩
    · cases rest with
      | nil =>
        by_cases hparen : node.isParen <;>
          simp only [scoreStep, stateHasNum, hparen, Bool.false_eq_true,
            ite_true, ite_false] <;>
          exact Or.inl (by
            first
              | exact (mem_keys_flushNums _ _ _ _).2 (Or.inl hp)
              | exact hp)
      | cons parent rest' =>
        by_cases hparen : node.isParen <;>
          simp only [scoreStep, stateHasNum, hparen, Bool.false_eq_true,
            ite_true, ite_false] <;>
          exact Or.inl (by
            first
              | exact (mem_keys_flushNums _ _ _ _).2 (Or.inl hp)
              | exact hp)
    · cases rest with
      | nil =>
        by_cases hparen : node.isParen <;>
          simp only [scoreStep, stateHasNum, hparen, Bool.false_eq_true,
            ite_true, ite_false] <;>
          exact Or.inr (Or.inl (by
            first
              | exact (mem_keys_flushNums _ _ _ _).2 (Or.inl hb)
              | exact hb))
      | cons parent rest' =>
        by_cases hparen : node.isParen <;>
          simp only [scoreStep, stateHasNum, hparen, Bool.false_eq_true,
            ite_true, ite_false] <;>
          exact Or.inr (Or.inl (by
            first
              | exact (mem_keys_flushNums _ _ _ _).2 (Or.inl hb)
              | exact hb))
    · rcases List.mem_cons.1 hmem with rfl | hrest
      · cases rest with
        | nil =>
          by_cases hparen : nd.isParen <;>
            simp only [scoreStep, stateHasNum, hparen, Bool.false_eq_true,
              ite_true, ite_false]
          · exact Or.inl ((mem_keys_flushNums _ _ _ _).2 (Or.inr hnode))
          · exact Or.inr (Or.inl ((mem_keys_flushNums _ _ _ _).2 (Or.inr hnode)))
        | cons parent rest' =>
          by_cases hparen : nd.isParen <;>
            simp only [scoreStep, stateHasNum, hparen, Bool.false_eq_true,
              ite_true, ite_false] <;>
            exact Or.inr (Or.inr ⟨_, List.mem_cons_self _ _,
              (mem_unionNums _ _ _).2 (Or.inr hnode)⟩)
      · cases rest with
        | nil => cases hrest
        | cons parent rest' =>
          rcases List.mem_cons.1 hrest with rfl | hrest'
          · by_cases hparen : node.isParen <;>
              simp only [scoreStep, stateHasNum, hparen, Bool.false_eq_true,
                ite_true, ite_false] <;>
              exact Or.inr (Or.inr ⟨_, List.mem_cons_self _ _,
                (mem_unionNums _ _ _).2 (Or.inl hnode)⟩)
          · by_cases hparen : node.isParen <;>
              simp only [scoreStep, stateHasNum, hparen, Bool.false_eq_true,
                ite_true, ite_false] <;>
              exact Or.inr (Or.inr ⟨nd, List.mem_cons_of_mem _ hrest', hnode⟩)

theorem scoreStep_preserves (st : ScoreState) (tk : STok) (n : Nat)
    (h : stateHasNum st n) : stateHasNum (scoreStep st tk) n := by
  obtain ⟨stack, pmap, bmap⟩ := st
  cases tk with
  | openP =>
    rcases h with hp | hb | ⟨nd, hmem, hnode⟩
    · exact Or.inl hp
    · exact Or.inr (Or.inl hb)
    · exact Or.inr (Or.inr ⟨nd, List.mem_cons_of_mem _ hmem, hnode⟩)
  | openB =>
    rcases h with hp | hb | ⟨nd, hmem, hnode⟩
    · exact Or.inl hp
    · exact Or.inr (Or.inl hb)
    · exact Or.inr (Or.inr ⟨nd, List.mem_cons_of_mem _ hmem, hnode⟩)
  | pipe => exact h
  | closeP => exact hasNum_closer _ n h
  | closeB => exact hasNum_closer _ n h
  | num m =>
    cases stack with
    | nil =>
      rcases h with hp | hb | ⟨nd, hmem, hnode⟩
      · exact Or.inl ((mem_keys_setdefaultA _ _ _ _).2 (Or.inl hp))
      · exact Or.inr (Or.inl hb)
      · cases hmem
    | cons top rest =>
      rcases h with hp | hb | ⟨nd, hmem, hnode⟩
      · exact Or.inl hp
      · exact Or.inr (Or.inl hb)
      · rcases List.mem_cons.1 hmem with rfl | hrest
        · exact Or.inr (Or.inr ⟨_, List.mem_cons_self _ _,
            (mem_addElem _ _ _).2 (Or.inl hnode)⟩)
        · exact Or.inr (Or.inr ⟨nd, List.mem_cons_of_mem _ hrest, hnode⟩)

theorem hasNum_closer_rev (st : ScoreState) (n : Nat)
    (h : stateHasNum (scoreStep st .closeP) n) : stateHasNum st n := by
  obtain ⟨stack, pmap, bmap⟩ := st
  cases stack with
  | nil => exact h
  | cons node rest =>
    cases rest with
    | nil =>
      by_cases hparen : node.isParen <;>
        simp only [scoreStep, stateHasNum, hparen, Bool.false_eq_true,
          ite_true, ite_false] at h <;>
        rcases h with hp | hb | ⟨nd, hmem, hnode⟩
      · rcases (mem_keys_flushNums _ _ _ _).1 hp with hin | hnums
        · exact Or.inl hin
        · exact Or.inr (Or.inr ⟨node, List.mem_cons_self _ _, hnums⟩)
      · exact Or.inr (Or.inl hb)
      · cases hmem
      · exact Or.inl hp
      · rcases (mem_keys_flushNums _ _ _ _).1 hb with hin | hnums
        · exact Or.inr (Or.inl hin)
        · exact Or.inr (Or.inr ⟨node, List.mem_cons_self _ _, hnums⟩)
      · cases hmem
    | cons parent rest' =>
      by_cases hparen : node.isParen <;>
        simp only [scoreStep, stateHasNum, hparen, Bool.false_eq_true,
          ite_true, ite_false] at h <;>
        rcases h with hp | hb | ⟨nd, hmem, hnode⟩
      · rcases (mem_keys_flushNums _ _ _ _).1 hp with hin | hnums
        · exact Or.inl hin
        · exact Or.inr (Or.inr ⟨node, List.mem_cons_self _ _, hnums⟩)
      · exact Or.inr (Or.inl hb)
      · rcases List.mem_cons.1 hmem with rfl | hrest'
        · rcases (mem_unionNums _ _ _).1 hnode with hpar | hnd
          · exact Or.inr (Or.inr ⟨parent, List.mem_cons_of_mem _
              (List.mem_cons_self _ _), hpar⟩)
          · exact Or.inr (Or.inr ⟨node, List.mem_cons_self _ _, hnd⟩)
        · exact Or.inr (Or.inr ⟨nd, List.mem_cons_of_mem _
            (List.mem_cons_of_mem _ hrest'), hnode⟩)
      · exact Or.inl hp
      · rcases (mem_keys_flushNums _ _ _ _).1 hb with hin | hnums
        · exact Or.inr (Or.inl hin)
        · exact Or.inr (Or.inr ⟨node, List.mem_cons_self _ _, hnums⟩)
      · rcases List.mem_cons.1 hmem with rfl | hrest'
        · rcases (mem_unionNums _ _ _).1 hnode with hpar | hnd
          · exact Or.inr (Or.inr ⟨parent, List.mem_cons_of_mem _
              (List.mem_cons_self _ _), hpar⟩)
          · exact Or.inr (Or.inr ⟨node, List.mem_cons_self _ _, hnd⟩)
        · exact Or.inr (Or.inr ⟨nd, List.mem_cons_of_mem _
            (List.mem_cons_of_mem _ hrest'), hnode⟩)

theorem scoreStep_new (st : ScoreState) (tk : STok) (n : Nat)
    (h : stateHasNum (scoreStep st tk) n) :
    stateHasNum st n ∨ tk = STok.num n := by
  obtain ⟨stack, pmap, bmap⟩ := st
  cases tk with
  | openP =>
    rcases h with hp | hb | ⟨nd, hmem, hnode⟩
    · exact Or.inl (Or.inl hp)
    · exact Or.inl (Or.inr (Or.inl hb))
    · rcases List.mem_cons.1 hmem with rfl | hrest
      · cases hnode
      · exact Or.inl (Or.inr (Or.inr ⟨nd, hrest, hnode⟩))
  | openB =>
    rcases h with hp | hb | ⟨nd, hmem, hnode⟩
    · exact Or.inl (Or.inl hp)
    · exact Or.inl (Or.inr (Or.inl hb))
    · rcases List.mem_cons.1 hmem with rfl | hrest
      · cases hnode
      · exact Or.inl (Or.inr (Or.inr ⟨nd, hrest, hnode⟩))
  | pipe => exact Or.inl h
  | closeP => exact Or.inl (hasNum_closer_rev _ n h)
  | closeB => exact Or.inl (hasNum_closer_rev _ n (by rwa [scoreStep_closers]))
  | num m =>
    cases stack with
    | nil =>
      rcases h with hp | hb | ⟨nd, hmem, hnode⟩
      · rcases (mem_keys_setdefaultA _ _ _ _).1 hp with hin | rfl
        · exact Or.inl (Or.inl hin)
        · exact Or.inr rfl
      · exact Or.inl (Or.inr (Or.inl hb))
      · cases hmem
    | cons top rest =>
      rcases h with hp | hb | ⟨nd, hmem, hnode⟩
      · exact Or.inl (Or.inl hp)
      · exact Or.inl (Or.inr (Or.inl hb))
      · rcases List.mem_cons.1 hmem with rfl | hrest
        · rcases (mem_addElem _ _ _).1 hnode with hin | rfl
          · exact Or.inl (Or.inr (Or.inr ⟨top, List.mem_cons_self _ _, hin⟩))
          · exact Or.inr rfl
        · exact Or.inl (Or.inr (Or.inr ⟨nd, List.mem_cons_of_mem _ hrest, hnode⟩))

theorem scoreStep_num_self (st : ScoreState) (n : Nat) :
    stateHasNum (scoreStep st (.num n)) n := by
  obtain ⟨stack, pmap, bmap⟩ := st
  cases stack with
  | nil => exact Or.inl ((mem_keys_setdefaultA _ _ _ _).2 (Or.inr rfl))
  | cons top rest =>
    exact Or.inr (Or.inr ⟨_, List.mem_cons_self _ _,
      (mem_addElem _ _ _).2 (Or.inr rfl)⟩)

theorem scoreStep_hasNum_iff (st : ScoreState) (tk : STok) (n : Nat) :
    stateHasNum (scoreStep st tk) n ↔ stateHasNum st n ∨ tk = STok.num n := by
  constructor
  · exact scoreStep_new st tk n
  · rintro (h | rfl)
    · exact scoreStep_preserves st tk n h
    · exact scoreStep_num_self st n

/-- The voice ids named by a token list. -/
def numsOfToks (toks : List STok) : List Nat :=
  toks.filterMap (fun t => match t with | .num n => some n | _ => none)

/-- The voice ids appearing in a layout payload (its tokenized digit
runs). -/
def appearingIds (payload : Chars) : List Nat :=
  numsOfToks (scoreTokenize payload)

theorem foldl_hasNum_iff (toks : List STok) (n : Nat) :
    ∀ st : ScoreState,
      stateHasNum (toks.foldl scoreStep st) n ↔
        stateHasNum st n ∨ n ∈ numsOfToks toks := by
  induction toks with
  | nil => intro st; simp [numsOfToks]
  | cons tk rest ih =>
    intro st
    rw [List.foldl_cons, ih, scoreStep_hasNum_iff]
    cases tk <;> first
      | (simp [numsOfToks]; tauto)
      | simp [numsOfToks]

theorem scoreRun_hasNum (payload : Chars) (n : Nat) :
    stateHasNum (scoreRun payload) n ↔ n ∈ appearingIds payload := by
  unfold scoreRun appearingIds
  rw [foldl_hasNum_iff]
  have hinit : ¬stateHasNum ⟨[], [], []⟩ n := by
    rintro (h | h | ⟨nd, hmem, _⟩)
    · cases h
    · cases h
    · cases hmem
  tauto

theorem mem_keys_mergeMaps (p b : List (Nat × Chars)) (n : Nat) :
    n ∈ keysA (mergeMaps p b) ↔ n ∈ keysA p ∨ n ∈ keysA b := by
  unfold mergeMaps
  rw [mem_keys_foldl_updA, mem_keys_foldl_updA]
  simp [keysA]

theorem nodup_keys_mergeMaps (p b : List (Nat × Chars)) :
    (keysA (mergeMaps p b)).Nodup := by
  unfold mergeMaps
  exact nodup_keys_foldl_updA b _ (nodup_keys_foldl_updA p [] List.nodup_nil)

/-! ## Claim C5 — group-map totality -/

/-- C5, counterexample: in the payload `(1` the id 1 appears, but the
enclosing group is never closed, so the walk ends with the accumulator
still open and the resulting group map is empty — the id receives no
descriptor. -/
theorem c5_counterexample :
    1 ∈ appearingIds (cs "(1") ∧ buildGroupMap (cs "(1") = [] := by
  constructor
  · decide
  · decide

/-- C5, amended: provided the walk ends with no open accumulator (every
group opened in the payload is closed), a voice id is a key of the group
map exactly when it appears in the payload; unconditionally, an id that
does not appear in the payload is absent from the map, and the map's keys
are duplicate-free, so a present id has exactly one descriptor.  An id
inside a group left unclosed at the end of the payload is dropped. -/
theorem c5_amended :
    (∀ payload : Chars, (scoreRun payload).stack = [] →
        ∀ n : Nat, n ∈ appearingIds payload ↔ n ∈ keysA (buildGroupMap payload))
      ∧ (∀ (payload : Chars) (n : Nat),
          n ∉ appearingIds payload → n ∉ keysA (buildGroupMap payload))
      ∧ ∀ payload : Chars, (keysA (buildGroupMap payload)).Nodup := by
  have hmem : ∀ (payload : Chars) (n : Nat),
      n ∈ keysA (buildGroupMap payload) ↔
        n ∈ keysA (scoreRun payload).pmap ∨ n ∈ keysA (scoreRun payload).bmap := by
    intro payload n
    exact mem_keys_mergeMaps _ _ n
  refine ⟨?_, ?_, ?_⟩
  · intro payload hstack n
    rw [hmem payload n, ← scoreRun_hasNum]
    unfold stateHasNum
    rw [hstack]
    simp
  · intro payload n hn hk
    apply hn
    rw [← scoreRun_hasNum]
    rcases (hmem payload n).1 hk with h | h
    · exact Or.inl h
    · exact Or.inr (Or.inl h)
  · intro payload
    exact nodup_keys_mergeMaps _ _

/-- C5 witness: for the well-formed payload `{(1|2)|3}` the walk ends with
an empty stack and id 1 both appears and is a key of the map. -/
theorem c5_amended_witness :
    1 ∈ appearingIds (cs "{(1|2)|3}") ↔
      1 ∈ keysA (buildGroupMap (cs "{(1|2)|3}")) :=
  c5_amended.1 (cs "{(1|2)|3}") (by decide) 1

/-! ## Claim C6 — brace priority -/

/-- C6: whenever an id is a key of the brace map, the merged group map
returns the brace map's descriptor (brace entries overwrite parenthesis
entries); in particular, for the payload `{(1|2)|3}` the ids 1 and 2 map
to the outer brace descriptor `{(1|2)|3}`, not to `(1|2)`. -/
theorem c6_brace_priority :
    (∀ (payload : Chars) (n : Nat), n ∈ keysA (scoreRun payload).bmap →
        lookupA (buildGroupMap payload) n = lookupA (scoreRun payload).bmap n)
      ∧ lookupA (buildGroupMap (cs "{(1|2)|3}")) 1 = some (cs "{(1|2)|3}")
      ∧ lookupA (buildGroupMap (cs "{(1|2)|3}")) 2 = some (cs "{(1|2)|3}")
      ∧ cs "{(1|2)|3}" ≠ cs "(1|2)" := by
  refine ⟨?_, by decide, by decide, by decide⟩
  intro payload n hn
  unfold buildGroupMap mergeMaps
  exact lookupA_foldl_updA_mem _ n _ (scoreRun_nodup payload).2 hn

/-- C6 witness: instantiated at the payload `{(1|2)|3}` and id 1, whose
membership in the brace map is checked by evaluation. -/
theorem c6_brace_priority_witness :
    lookupA (buildGroupMap (cs "{(1|2)|3}")) 1 =
      lookupA (scoreRun (cs "{(1|2)|3}")).bmap 1 :=
  c6_brace_priority.1 (cs "{(1|2)|3}") 1 (by decide)

/-! ## Claim C8 — tolerance of malformed layout and voice syntax -/

/-- C8: encoding never fails.  In the embedding every fallible primitive
(integer conversion, a regex that does not match) is modelled with
`Option` exactly where the source guards it, and `encode` is a total
function: every input yields a result.  The three documented tolerance
cases hold: a closer of either type behaves identically (the popped
accumulator's own type decides the rendering, so a mismatched closer is
ignored); a stray closer with nothing open leaves the state unchanged; an
unparsable transpose value falls back to 0.  A document combining all
three malformations encodes to a concrete result: the stray `)` is
dropped, `(1}` renders as the paren group `(1)`, and `transpose=x`
becomes `0`. -/
theorem encoded_eta (e : Encoded) : e = ⟨e.text⟩ := rfl

theorem c8_encode_tolerance :
    (∀ s : Chars, ∃ t : Chars, ABCCleaner.encode s = ⟨t⟩)
      ∧ (∀ st : ScoreState, scoreStep st .closeP = scoreStep st .closeB)
      ∧ (∀ st : ScoreState, st.stack = [] →
          scoreStep st .closeP = st ∧ scoreStep st .closeB = st)
      ∧ (∀ payload : Chars, findTranspose payload = none →
          (parseVPayload payload).transpose = 0)
      ∧ ABCCleaner.encode (cs "%%score )(1\x7d\nV:1 clef=bass transpose=x\n[V:1]ab")
        = ⟨cs "V:1 bass 0 (1)\n[V:1]ab"⟩ := by
  refine ⟨fun s => ⟨(ABCCleaner.encode s).text, encoded_eta _⟩,
    fun st => scoreStep_closers st, ?_, ?_, by decide⟩
  · rintro ⟨stack, pmap, bmap⟩ hstack
    cases hstack
    exact ⟨rfl, rfl⟩
  · intro payload h
    unfold parseVPayload
    rw [h]
    rfl

/-- C8 witness: the tolerance statements instantiated at concrete
arguments. -/
theorem c8_encode_tolerance_witness :
    (∃ t : Chars, ABCCleaner.encode (cs "(1") = ⟨t⟩)
      ∧ scoreStep ⟨[], [(1, cs "(1)")], []⟩ .closeP = ⟨[], [(1, cs "(1)")], []⟩
      ∧ (parseVPayload (cs "clef=bass transpose=x")).transpose = 0 :=
  ⟨c8_encode_tolerance.1 (cs "(1"),
   (c8_encode_tolerance.2.2.1 ⟨[], [(1, cs "(1)")], []⟩ rfl).1,
   c8_encode_tolerance.2.2.2.1 (cs "clef=bass transpose=x") (by decide)⟩

/-! ## Characterising `_inject_first_line_tags` -/

/-- The injection loop with both flags already set: every marker part gets
only its key/percussion part appended, never a tempo or meter tag. -/
def mapKI (ctx : InjectCtx) : List Chars → List Chars
  | [] => []
  | seg :: rest =>
    (match matchVSeg seg with
      | some vid => seg ++ kiPartFor ctx vid (rest.headD [])
      | none => seg) :: mapKI ctx rest

theorem injectAux_true_true (ctx : InjectCtx) (parts : List Chars) :
    injectAux ctx true true parts = mapKI ctx parts := by
  induction parts with
  | nil => rfl
  | cons seg rest ih =>
    cases hm : matchVSeg seg with
    | some vid => simp [injectAux, mapKI, hm, ih]
    | none => simp [injectAux, mapKI, hm, ih]

theorem injectAux_get_marker (ctx : InjectCtx) (parts : List Chars) :
    ∀ (fq fm : Bool) (i : Nat) (seg : Chars) (vid : Nat),
      parts.get? i = some seg → matchVSeg seg = some vid →
      ∃ qm : Chars,
        (injectAux ctx fq fm parts).get? i =
          some (seg ++ qm ++ kiPartFor ctx vid ((parts.drop (i + 1)).headD [])) := by
  induction parts with
  | nil => intro fq fm i seg vid h; cases h
  | cons seg0 rest ih =>
    intro fq fm i seg vid hget hmatch
    cases i with
    | zero =>
      rw [List.get?_cons_zero] at hget
      injection hget with hseg
      subst hseg
      refine ⟨(if !fq && ctx.qVal.isSome && vid == 1 then
          cs "[Q:" ++ ctx.qVal.getD [] ++ [']'] else [])
        ++ (if !fm && ctx.mVal.isSome && vid == 1 then
          cs "[M:" ++ ctx.mVal.getD [] ++ [']'] else []), ?_⟩
      simp only [injectAux, hmatch, List.get?_cons_zero, List.drop_succ_cons,
        List.drop_zero, Option.some.injEq, List.append_assoc]
    | succ i' =>
      rw [List.get?_cons_succ] at hget
      cases hm0 : matchVSeg seg0 with
      | some v0 =>
        obtain ⟨qm, hqm⟩ := ih _ _ i' seg vid hget hmatch
        exact ⟨qm, by simpa only [injectAux, hm0, List.get?_cons_succ,
          List.drop_succ_cons] using hqm⟩
      | none =>
        obtain ⟨qm, hqm⟩ := ih fq fm i' seg vid hget hmatch
        exact ⟨qm, by simpa only [injectAux, hm0, List.get?_cons_succ,
          List.drop_succ_cons] using hqm⟩

/-! ## Claim C7 — single tempo/meter injection at the first voice-1 marker -/

/-- C7: when a tempo and a meter were both extracted and some part of the
split first body line is a voice-1 marker, the loop output is exactly the
key/percussion-only rendering `mapKI` with one single position changed:
the first voice-1 marker part, which receives the tempo tag and then the
meter tag immediately after the marker text (before its key/percussion
part).  Since `mapKI` appends no tempo or meter tag anywhere, the rendered
line contains exactly one injected tempo tag and one injected meter tag,
both at the first voice-1 marker and at no other marker. -/
theorem c7_single_injection (ctx : InjectCtx) (q m : Chars) (parts : List Chars)
    (hq : ctx.qVal = some q) (hm : ctx.mVal = some m)
    (hex : ∃ seg ∈ parts, matchVSeg seg = some 1) :
    ∃ pre segJ post, parts = pre ++ segJ :: post
      ∧ matchVSeg segJ = some 1
      ∧ (∀ p ∈ pre, matchVSeg p ≠ some 1)
      ∧ injectAux ctx false false parts =
          (mapKI ctx parts).set pre.length
            (segJ ++ (cs "[Q:" ++ q ++ [']']) ++ (cs "[M:" ++ m ++ [']'])
              ++ kiPartFor ctx 1 (post.headD [])) := by
  induction parts with
  | nil =>
    obtain ⟨s, hs, _⟩ := hex
    cases hs
  | cons seg rest ih =>
    by_cases h1 : matchVSeg seg = some 1
    · refine ⟨[], seg, rest, rfl, h1, by simp, ?_⟩
      simp only [injectAux, h1, hq, hm, Option.isSome_some, Bool.not_false,
        Bool.true_and, Bool.and_true, beq_self_eq_true, Bool.and_self,
        ite_true, Option.getD_some, Bool.or_true, Bool.true_or,
        injectAux_true_true, List.length_nil, List.set_cons_zero, mapKI,
        List.append_assoc]
    · have hex' : ∃ s ∈ rest, matchVSeg s = some 1 := by
        obtain ⟨s, hs, hms⟩ := hex
        rcases List.mem_cons.1 hs with rfl | hrest
        · exact absurd hms h1
        · exact ⟨s, hrest, hms⟩
      obtain ⟨pre', segJ, post', hparts, hsegJ, hpre', hout⟩ := ih hex'
      refine ⟨seg :: pre', segJ, post', by rw [hparts, List.cons_append], hsegJ,
        ?_, ?_⟩
      · intro p hp
        rcases List.mem_cons.1 hp with rfl | hp'
        · exact h1
        · exact hpre' p hp'
      · cases hm0 : matchVSeg seg with
        | some v =>
          have hv : (v == 1) = false := by
            rw [beq_eq_false_iff_ne]
            intro he
            exact h1 (he ▸ hm0)
          simp [injectAux, hm0, hv, hout, mapKI, List.set_cons_succ]
        | none =>
          simp only [injectAux, hm0, hout, mapKI, List.length_cons,
            List.set_cons_succ]

/-- C7 witness: instantiated at the context with tempo `1/4=120` and meter
`4/4` and the split parts of the line `[V:2]x[V:1]ab`. -/
theorem c7_single_injection_witness :
    ∃ pre segJ post,
      [cs "[V:2]", cs "x", cs "[V:1]", cs "ab"] = pre ++ segJ :: post
        ∧ matchVSeg segJ = some 1
        ∧ (∀ p ∈ pre, matchVSeg p ≠ some 1)
        ∧ injectAux ⟨some (cs "1/4=120"), some (cs "4/4"), none, []⟩ false false
            [cs "[V:2]", cs "x", cs "[V:1]", cs "ab"] =
            (mapKI ⟨some (cs "1/4=120"), some (cs "4/4"), none, []⟩
              [cs "[V:2]", cs "x", cs "[V:1]", cs "ab"]).set pre.length
              (segJ ++ (cs "[Q:" ++ cs "1/4=120" ++ [']'])
                ++ (cs "[M:" ++ cs "4/4" ++ [']'])
                ++ kiPartFor ⟨some (cs "1/4=120"), some (cs "4/4"), none, []⟩ 1
                  (post.headD [])) :=
  c7_single_injection ⟨some (cs "1/4=120"), some (cs "4/4"), none, []⟩
    (cs "1/4=120") (cs "4/4") [cs "[V:2]", cs "x", cs "[V:1]", cs "ab"] rfl rfl
    ⟨cs "[V:1]", by decide, by decide⟩

/-! ## Claim C3 — key-tag injection at each voice marker -/

/-- C3, counterexample: in the first body line `[V:1]ab[K:D]cd` with
extracted default key `C` and no overrides, the inline key tag `[K:D]`
occurs later in voice 1's segment, not immediately after the marker; the
claim therefore predicts that `[K:C]` is injected, but the code injects
nothing (the suppression test is a substring test over the whole
segment) and returns the line unchanged. -/
theorem c3_counterexample :
    injectFirstLineTags ⟨none, none, some (cs "C"), []⟩ (cs "[V:1]ab[K:D]cd")
        = cs "[V:1]ab[K:D]cd"
      ∧ containsSub
          (injectFirstLineTags ⟨none, none, some (cs "C"), []⟩
            (cs "[V:1]ab[K:D]cd")) (cs "[K:C]") = false := by
  constructor
  · decide
  · decide

/-- C3, amended: at every voice marker part of the split line, the
injected key part `kp` is decided as follows — a recorded "no key"
override forces `kp = [K:none]` regardless of the extracted default key
and of the segment's contents; otherwise an inline key tag occurring
ANYWHERE in that voice's segment (not only immediately after the marker)
suppresses injection; otherwise the extracted default key is injected
when present.  The percussion-map lines follow the key part. -/
theorem c3_key_injection_amended (ctx : InjectCtx) (fq fm : Bool)
    (parts : List Chars) (i : Nat) (seg : Chars) (vid : Nat)
    (hget : parts.get? i = some seg) (hmatch : matchVSeg seg = some vid) :
    ∃ qm kp : Chars,
      (injectAux ctx fq fm parts).get? i =
          some (seg ++ qm ++ kp ++ iPartFor ctx vid)
        ∧ ((∃ e, lookupA ctx.perc vid = some e ∧ e.kList ≠ []) →
            kp = cs "[K:none]")
        ∧ ((∀ e, lookupA ctx.perc vid = some e → e.kList = []) →
            containsSub ((parts.drop (i + 1)).headD []) (cs "[K:") = true →
            kp = [])
        ∧ ((∀ e, lookupA ctx.perc vid = some e → e.kList = []) →
            containsSub ((parts.drop (i + 1)).headD []) (cs "[K:") = false →
            kp = (match ctx.kDefault with
                  | some d => cs "[K:" ++ d ++ [']']
                  | none => [])) := by
  obtain ⟨qm, hqm⟩ := injectAux_get_marker ctx parts fq fm i seg vid hget hmatch
  refine ⟨qm, kPartFor ctx vid ((parts.drop (i + 1)).headD []), ?_, ?_, ?_, ?_⟩
  · rw [hqm]
    simp [kiPartFor, List.append_assoc]
  · rintro ⟨e, he, hne⟩
    simp only [kPartFor, he]
    rw [if_pos hne]
    rfl
  · intro hall hcon
    cases hl : lookupA ctx.perc vid with
    | none =>
      simp only [kPartFor, hl]
      rw [hcon]
      rfl
    | some e =>
      have hke : e.kList = [] := hall e hl
      simp only [kPartFor, hl]
      rw [if_neg (by simp [hke]), hcon]
      rfl
  · intro hall hcon
    cases hl : lookupA ctx.perc vid with
    | none =>
      simp only [kPartFor, hl]
      rw [hcon]
      rfl
    | some e =>
      have hke : e.kList = [] := hall e hl
      simp only [kPartFor, hl]
      rw [if_neg (by simp [hke]), hcon]
      rfl

/-- C3 witness: instantiated at a percussion voice 2 with a recorded
`K:none` override and an extracted default key `C`, at the marker part
`[V:2]` of a split line. -/
theorem c3_key_injection_amended_witness :
    ∃ qm kp : Chars,
      (injectAux ⟨none, none, some (cs "C"), [(2, ⟨[cs "none"], []⟩)]⟩
          false false [cs "[V:2]", cs "xy"]).get? 0 =
          some (cs "[V:2]" ++ qm ++ kp
            ++ iPartFor ⟨none, none, some (cs "C"), [(2, ⟨[cs "none"], []⟩)]⟩ 2)
        ∧ ((∃ e, lookupA [(2, (⟨[cs "none"], []⟩ : PercEntry))] 2 = some e
              ∧ e.kList ≠ []) → kp = cs "[K:none]")
        ∧ ((∀ e, lookupA [(2, (⟨[cs "none"], []⟩ : PercEntry))] 2 = some e →
              e.kList = []) →
            containsSub (([cs "[V:2]", cs "xy"].drop 1).headD []) (cs "[K:")
              = true → kp = [])
        ∧ ((∀ e, lookupA [(2, (⟨[cs "none"], []⟩ : PercEntry))] 2 = some e →
              e.kList = []) →
            containsSub (([cs "[V:2]", cs "xy"].drop 1).headD []) (cs "[K:")
              = false →
            kp = (match some (cs "C") with
                  | some d => cs "[K:" ++ d ++ [']']
                  | none => ([] : Chars))) :=
  c3_key_injection_amended ⟨none, none, some (cs "C"), [(2, ⟨[cs "none"], []⟩)]⟩
    false false [cs "[V:2]", cs "xy"] 0 (cs "[V:2]") 2 (by decide) (by decide)

/-! ## Lemmas for the short-name broadcast (claim C9) -/

theorem dropWhile_all {p : Char → Bool} {l : Chars}
    (h : ∀ x ∈ l.dropWhile p, p x) : ∀ x ∈ l, p x := by
  induction l with
  | nil => intro x hx; cases hx
  | cons c t ih =>
    by_cases hc : p c
    · intro x hx
      rcases List.mem_cons.1 hx with rfl | hx'
      · exact hc
      · exact ih (by simpa [List.dropWhile_cons, hc] using h) x hx'
    · intro x hx
      exact h x (by simpa [List.dropWhile_cons, hc] using hx)

theorem pyStrip_eq_nil_iff (s : Chars) :
    pyStrip s = [] ↔ ∀ c ∈ s, pySpace c := by
  unfold pyStrip
  rw [List.reverse_eq_nil_iff, List.dropWhile_eq_nil_iff]
  constructor
  · intro h c hc
    by_cases hdrop : ∀ x ∈ s.dropWhile pySpace, pySpace x
    · exact dropWhile_all hdrop c hc
    · push_neg at hdrop
      obtain ⟨x, hx, hxn⟩ := hdrop
      exact absurd (h x (List.mem_reverse.2 hx)) hxn
  · intro h x hx
    have hx' : x ∈ s.dropWhile pySpace := List.mem_reverse.1 hx
    have : x ∈ s := (List.dropWhile_sublist pySpace).mem hx'
    exact h x this

theorem mem_pyStrip_of_not_space {s : Chars} {c : Char} (hc : c ∈ s)
    (hn : pySpace c = false) : c ∈ pyStrip s := by
  unfold pyStrip
  rw [List.mem_reverse]
  have step : ∀ (l : Chars), c ∈ l → c ∈ l.dropWhile pySpace := by
    intro l hl
    have hsplit : l.takeWhile pySpace ++ l.dropWhile pySpace = l :=
      List.takeWhile_append_dropWhile pySpace l
    have hl' : c ∈ l.takeWhile pySpace ++ l.dropWhile pySpace := by
      rw [hsplit]
      exact hl
    rcases List.mem_append.1 hl' with h1 | h2
    · exact absurd (List.mem_takeWhile_imp h1) (by simp [hn])
    · exact h2
  exact step _ (List.mem_reverse.2 (step s hc))

theorem pyStrip_pyStrip_ne_nil {s : Chars} (h : pyStrip s ≠ []) :
    pyStrip (pyStrip s) ≠ [] := by
  intro hc
  apply h
  rw [pyStrip_eq_nil_iff] at hc ⊢
  intro c hcs
  by_cases hsp : pySpace c
  · exact hsp
  · exact absurd (hc c (mem_pyStrip_of_not_space hcs (by simpa using hsp)))
      (by simpa using hsp)

/-- Stripped-empty test of one voice's short name under a metadata map. -/
def strippedEmptyAt (vm : List (Nat × VMeta)) (v : Nat) : Prop :=
  pyStrip (snmOf vm v) = []

theorem fillOne_cons (kv : Nat × VMeta) (rest : List (Nat × VMeta)) (v : Nat)
    (L : Chars) :
    fillOne (kv :: rest) v L =
      (if kv.1 = v && pyStrip kv.2.snm = [] then (kv.1, { kv.2 with snm := L })
       else kv) :: fillOne rest v L := rfl

theorem keysA_fillOne (vm : List (Nat × VMeta)) (v : Nat) (L : Chars) :
    keysA (fillOne vm v L) = keysA vm := by
  induction vm with
  | nil => rfl
  | cons kv rest ih =>
    rw [fillOne_cons, keysA_cons, keysA_cons, ih]
    congr 1
    split
    · rfl
    · rfl

theorem lookupA_fillOne_other (vm : List (Nat × VMeta)) (v w : Nat) (L : Chars)
    (h : w ≠ v) : lookupA (fillOne vm v L) w = lookupA vm w := by
  induction vm with
  | nil => rfl
  | cons kv rest ih =>
    obtain ⟨k, meta⟩ := kv
    rw [fillOne_cons]
    by_cases hk : k = w
    · subst hk
      rw [if_neg (by
        simp only [Bool.and_eq_true, decide_eq_true_eq, not_and]
        intro he
        exact absurd he h)]
      rw [lookupA_cons_eq, lookupA_cons_eq]
    · split
      · rw [lookupA_cons_ne hk, lookupA_cons_ne hk]
        exact ih
      · rw [lookupA_cons_ne hk, lookupA_cons_ne hk]
        exact ih

theorem lookupA_fillOne_self (vm : List (Nat × VMeta)) (v : Nat) (L : Chars) :
    lookupA (fillOne vm v L) v =
      (lookupA vm v).map (fun meta =>
        if pyStrip meta.snm = [] then { meta with snm := L } else meta) := by
  induction vm with
  | nil => rfl
  | cons kv rest ih =>
    obtain ⟨k, meta⟩ := kv
    rw [fillOne_cons]
    by_cases hk : k = v
    · subst hk
      by_cases hemp : pyStrip meta.snm = []
      · rw [if_pos (by simp [hemp])]
        rw [lookupA_cons_eq, lookupA_cons_eq]
        simp [hemp]
      · rw [if_neg (by simp [hemp])]
        rw [lookupA_cons_eq, lookupA_cons_eq]
        simp [hemp]
    · rw [if_neg (by simp [hk])]
      rw [lookupA_cons_ne hk, lookupA_cons_ne hk]
      exact ih

theorem lookupA_fillFold_not_mem (vids : List Nat) (w : Nat) (L : Chars) :
    ∀ vm : List (Nat × VMeta), w ∉ vids →
      lookupA (vids.foldl (fun acc x => fillOne acc x L) vm) w = lookupA vm w := by
  induction vids with
  | nil => intro vm _; rfl
  | cons x rest ih =>
    intro vm hw
    simp only [List.mem_cons] at hw
    push_neg at hw
    rw [List.foldl_cons, ih _ hw.2, lookupA_fillOne_other _ _ _ _ hw.1]

theorem keysA_fillFold (vids : List Nat) (L : Chars) :
    ∀ vm : List (Nat × VMeta),
      keysA (vids.foldl (fun acc x => fillOne acc x L) vm) = keysA vm := by
  induction vids with
  | nil => intro vm; rfl
  | cons x rest ih =>
    intro vm
    rw [List.foldl_cons, ih, keysA_fillOne]

theorem keysA_fillGroup (vm : List (Nat × VMeta)) (vids : List Nat) :
    keysA (fillGroup vm vids) = keysA vm := by
  unfold fillGroup
  cases findLeader vm (sortNats vids) with
  | none => rfl
  | some L => exact keysA_fillFold vids L vm

theorem not_strippedEmpty_fillOne (vm : List (Nat × VMeta)) (v w : Nat)
    (L : Chars) (h : ¬strippedEmptyAt vm w) :
    ¬strippedEmptyAt (fillOne vm v L) w := by
  unfold strippedEmptyAt snmOf at h ⊢
  by_cases hv : w = v
  · subst hv
    rw [lookupA_fillOne_self]
    cases hl : lookupA vm w with
    | none => rw [hl] at h; exact h
    | some meta =>
      rw [hl] at h
      have hne : ¬pyStrip meta.snm = [] := h
      simp only [Option.map_some']
      rw [if_neg hne]
      exact h
  · rw [lookupA_fillOne_other _ _ _ _ hv]
    exact h

theorem not_strippedEmpty_fillOne_self (vm : List (Nat × VMeta)) (w : Nat)
    (L : Chars) (hL : pyStrip L ≠ []) (hw : w ∈ keysA vm) :
    ¬strippedEmptyAt (fillOne vm w L) w := by
  unfold strippedEmptyAt snmOf
  rw [lookupA_fillOne_self]
  cases hl : lookupA vm w with
  | none =>
    exact absurd ((lookupA_eq_none vm w).1 hl) (by simpa using hw)
  | some meta =>
    simp only [Option.map_some']
    by_cases hemp : pyStrip meta.snm = []
    · rw [if_pos hemp]
      exact hL
    · rw [if_neg hemp]
      exact hemp

theorem not_strippedEmpty_fillFold (vids : List Nat) (w : Nat) (L : Chars)
    (hL : pyStrip L ≠ []) :
    ∀ vm : List (Nat × VMeta), w ∈ vids → w ∈ keysA vm →
      ¬strippedEmptyAt (vids.foldl (fun acc x => fillOne acc x L) vm) w := by
  induction vids with
  | nil => intro vm hw _; cases hw
  | cons x rest ih =>
    intro vm hw hkeys
    rw [List.foldl_cons]
    rcases List.mem_cons.1 hw with rfl | hrest
    · by_cases hmem : w ∈ rest
      · exact ih _ hmem (by rw [keysA_fillOne]; exact hkeys)
      · -- filled at the head step, preserved afterwards
        have h1 : ¬strippedEmptyAt (fillOne vm w L) w :=
          not_strippedEmpty_fillOne_self vm w L hL hkeys
        have hpres : ∀ (l : List Nat) (acc : List (Nat × VMeta)),
            ¬strippedEmptyAt acc w →
            ¬strippedEmptyAt (l.foldl (fun a x => fillOne a x L) acc) w := by
          intro l
          induction l with
          | nil => intro acc h; exact h
          | cons y t iht =>
            intro acc h
            exact iht _ (not_strippedEmpty_fillOne acc y w L h)
        exact hpres rest _ h1
    · exact ih _ hrest (by rw [keysA_fillOne]; exact hkeys)

theorem findLeader_stripped (vm : List (Nat × VMeta)) :
    ∀ (vids : List Nat) (L : Chars), findLeader vm vids = some L →
      pyStrip L ≠ [] := by
  intro vids
  induction vids with
  | nil => intro L h; cases h
  | cons v rest ih =>
    intro L h
    unfold findLeader at h
    by_cases hs : pyStrip (snmOf vm v) ≠ []
    · rw [if_pos hs] at h
      injection h with hL
      subst hL
      exact pyStrip_pyStrip_ne_nil hs
    · rw [if_neg hs] at h
      exact ih L h

theorem findLeader_none_iff (vm : List (Nat × VMeta)) (vids : List Nat) :
    findLeader vm vids = none ↔ ∀ v ∈ vids, strippedEmptyAt vm v := by
  induction vids with
  | nil => simp [findLeader]
  | cons v rest ih =>
    unfold findLeader
    by_cases hs : pyStrip (snmOf vm v) ≠ []
    · rw [if_pos hs]
      simp only [List.mem_cons]
      constructor
      · intro h; cases h
      · intro h
        exact absurd (h v (Or.inl rfl)) hs
    · rw [if_neg hs]
      push_neg at hs
      rw [ih]
      constructor
      · intro h v' hv'
        rcases List.mem_cons.1 hv' with rfl | hr
        · exact hs
        · exact h v' hr
      · intro h v' hv'
        exact h v' (List.mem_cons_of_mem _ hv')

theorem mem_insNat (x w : Nat) (l : List Nat) :
    w ∈ insNat x l ↔ w = x ∨ w ∈ l := by
  induction l with
  | nil => simp [insNat]
  | cons y rest ih =>
    unfold insNat
    by_cases hy : y ≤ x
    · rw [if_pos hy]
      simp only [List.mem_cons, ih]
      tauto
    · rw [if_neg hy]
      simp only [List.mem_cons]

theorem mem_sortNats (w : Nat) (l : List Nat) : w ∈ sortNats l ↔ w ∈ l := by
  have : ∀ (l : List Nat) (acc : List Nat),
      w ∈ l.foldl (fun a x => insNat x a) acc ↔ w ∈ acc ∨ w ∈ l := by
    intro l
    induction l with
    | nil => intro acc; simp
    | cons x rest ih =>
      intro acc
      rw [List.foldl_cons, ih]
      simp only [mem_insNat, List.mem_cons]
      tauto
  unfold sortNats
  have h2 := this l []
  simp at h2
  exact h2

theorem strippedEmptyAt_congr {a b : List (Nat × VMeta)} {w : Nat}
    (h : lookupA a w = lookupA b w) :
    strippedEmptyAt a w ↔ strippedEmptyAt b w := by
  unfold strippedEmptyAt snmOf
  rw [h]

theorem lookupA_fillGroup_not_mem (vm : List (Nat × VMeta)) (vids : List Nat)
    (w : Nat) (hw : w ∉ vids) :
    lookupA (fillGroup vm vids) w = lookupA vm w := by
  unfold fillGroup
  cases findLeader vm (sortNats vids) with
  | none => rfl
  | some L => exact lookupA_fillFold_not_mem vids w L vm hw

theorem fillGroup_stability (vm : List (Nat × VMeta)) (vids : List Nat)
    (hsub : ∀ v ∈ vids, v ∈ keysA vm) :
    (∀ v ∈ vids, strippedEmptyAt (fillGroup vm vids) v)
      ∨ (∀ v ∈ vids, ¬strippedEmptyAt (fillGroup vm vids) v) := by
  unfold fillGroup
  cases hld : findLeader vm (sortNats vids) with
  | none =>
    left
    intro v hv
    exact (findLeader_none_iff vm (sortNats vids)).1 hld v
      ((mem_sortNats v vids).2 hv)
  | some L =>
    right
    intro v hv
    exact not_strippedEmpty_fillFold vids v L
      (findLeader_stripped vm (sortNats vids) L hld) vm hv (hsub v hv)

theorem lookupA_of_mem_nodup {κ α : Type} [DecidableEq κ] (m : List (κ × α))
    (hnd : (keysA m).Nodup) (kv : κ × α) (hkv : kv ∈ m) :
    lookupA m kv.1 = some kv.2 := by
  induction m with
  | nil => cases hkv
  | cons kv' rest ih =>
    rw [keysA_cons] at hnd
    have hnd' := List.nodup_cons.1 hnd
    rcases List.mem_cons.1 hkv with rfl | hrest
    · obtain ⟨k, v⟩ := kv
      exact lookupA_cons_eq k v rest
    · have hne : kv'.1 ≠ kv.1 := by
        intro he
        apply hnd'.1
        rw [he]
        exact List.mem_map_of_mem Prod.fst hrest
      obtain ⟨k', v'⟩ := kv'
      rw [lookupA_cons_ne hne]
      exact ih hnd'.2 hrest

theorem fillOne_id_of_nonempty (vm : List (Nat × VMeta)) (v : Nat) (L : Chars)
    (h : ∀ kv ∈ vm, kv.1 = v → ¬pyStrip kv.2.snm = []) :
    fillOne vm v L = vm := by
  induction vm with
  | nil => rfl
  | cons kv rest ih =>
    rw [fillOne_cons]
    rw [if_neg (by
      simp only [Bool.and_eq_true, decide_eq_true_eq, not_and]
      intro he
      exact h kv (List.mem_cons_self _ _) he)]
    rw [ih (fun kv' hkv' => h kv' (List.mem_cons_of_mem _ hkv'))]

theorem fillGroup_id (vm : List (Nat × VMeta)) (vids : List Nat)
    (hnd : (keysA vm).Nodup)
    (hstab : (∀ v ∈ vids, strippedEmptyAt vm v)
      ∨ (∀ v ∈ vids, ¬strippedEmptyAt vm v)) :
    fillGroup vm vids = vm := by
  unfold fillGroup
  cases hld : findLeader vm (sortNats vids) with
  | none => rfl
  | some L =>
    have hne : ∀ v ∈ vids, ¬strippedEmptyAt vm v := by
      rcases hstab with hall | hne
      · exfalso
        have hnone : findLeader vm (sortNats vids) = none :=
          (findLeader_none_iff _ _).2
            (fun v hv => hall v ((mem_sortNats _ _).1 hv))
        rw [hnone] at hld
        cases hld
      · exact hne
    have hstep : ∀ v ∈ vids, fillOne vm v L = vm := by
      intro v hv
      apply fillOne_id_of_nonempty
      intro kv hkv hk
      have hlook : lookupA vm kv.1 = some kv.2 := lookupA_of_mem_nodup vm hnd kv hkv
      have hv' := hne v hv
      unfold strippedEmptyAt snmOf at hv'
      rw [hk] at hlook
      rw [hlook] at hv'
      exact hv'
    have hfold : ∀ l : List Nat, (∀ x ∈ l, x ∈ vids) →
        l.foldl (fun a x => fillOne a x L) vm = vm := by
      intro l
      induction l with
      | nil => intro _; rfl
      | cons x t iht =>
        intro hsub
        rw [List.foldl_cons, hstep x (hsub x (List.mem_cons_self x t))]
        exact iht (fun y hy => hsub y (List.mem_cons_of_mem _ hy))
    exact hfold vids (fun x hx => hx)

theorem bucketsAdd_prop (Q : Chars → Nat → Prop) (g : Chars) (v : Nat) :
    ∀ acc : List (Chars × List Nat),
      (∀ b ∈ acc, ∀ w ∈ b.2, Q b.1 w) → Q g v →
      ∀ b ∈ bucketsAdd acc g v, ∀ w ∈ b.2, Q b.1 w := by
  intro acc
  induction acc with
  | nil =>
    intro _ hv b hb w hw
    rcases List.mem_singleton.1 hb with rfl
    rcases List.mem_singleton.1 hw with rfl
    exact hv
  | cons c rest ih =>
    obtain ⟨g', vs⟩ := c
    intro hacc hv
    unfold bucketsAdd
    by_cases hg : g' = g
    · rw [if_pos hg]
      intro b hb w hw
      rcases List.mem_cons.1 hb with rfl | hbr
      · rcases List.mem_append.1 hw with h1 | h2
        · exact hacc (g', vs) (List.mem_cons_self _ _) w h1
        · have hwv := List.mem_singleton.1 h2
          subst hwv
          show Q g' _
          rw [hg]
          exact hv
      · exact hacc b (List.mem_cons_of_mem _ hbr) w hw
    · rw [if_neg hg]
      intro b hb w hw
      rcases List.mem_cons.1 hb with rfl | hbr
      · exact hacc (g', vs) (List.mem_cons_self _ _) w hw
      · exact ih (fun b' hb' w' hw' =>
          hacc b' (List.mem_cons_of_mem _ hb') w' hw') hv b hbr w hw

theorem bucketsAdd_fst (g : Chars) (v : Nat) :
    ∀ acc : List (Chars × List Nat),
      (bucketsAdd acc g v).map Prod.fst =
        if g ∈ acc.map Prod.fst then acc.map Prod.fst
        else acc.map Prod.fst ++ [g] := by
  intro acc
  induction acc with
  | nil => simp [bucketsAdd]
  | cons c rest ih =>
    obtain ⟨g', vs⟩ := c
    unfold bucketsAdd
    by_cases hg : g' = g
    · rw [if_pos hg]
      simp only [List.map_cons]
      rw [if_pos (by
        rw [← hg]
        exact List.mem_cons_self _ _)]
    · rw [if_neg hg]
      simp only [List.map_cons]
      rw [ih]
      by_cases hm : g ∈ rest.map Prod.fst
      · rw [if_pos hm, if_pos (List.mem_cons_of_mem _ hm)]
      · rw [if_neg hm, if_neg (by
          intro hc
          rcases List.mem_cons.1 hc with he | hm2
          · exact hg he.symm
          · exact hm hm2)]
        rw [List.cons_append]

theorem bucketsAdd_fst_nodup (g : Chars) (v : Nat)
    (acc : List (Chars × List Nat)) (hnd : (acc.map Prod.fst).Nodup) :
    ((bucketsAdd acc g v).map Prod.fst).Nodup := by
  rw [bucketsAdd_fst]
  by_cases hm : g ∈ acc.map Prod.fst
  · rw [if_pos hm]
    exact hnd
  · rw [if_neg hm]
    exact hnd.append (List.nodup_singleton g) (fun a ha hb => by
      rw [List.mem_singleton] at hb
      subst hb
      exact hm ha)

theorem buildG2Vids_props (keys : List Nat) (gm : List (Nat × Chars)) :
    (∀ b ∈ buildG2Vids keys gm, ∀ v ∈ b.2, gkeyOf gm v = b.1 ∧ v ∈ keys)
      ∧ ((buildG2Vids keys gm).map Prod.fst).Nodup := by
  have main : ∀ (ks : List Nat) (acc : List (Chars × List Nat)),
      (∀ x ∈ ks, x ∈ keys) →
      (∀ b ∈ acc, ∀ v ∈ b.2, gkeyOf gm v = b.1 ∧ v ∈ keys) →
      (acc.map Prod.fst).Nodup →
      (∀ b ∈ ks.foldl (fun a v => bucketsAdd a (gkeyOf gm v) v) acc,
          ∀ v ∈ b.2, gkeyOf gm v = b.1 ∧ v ∈ keys)
        ∧ ((ks.foldl (fun a v => bucketsAdd a (gkeyOf gm v) v) acc).map
            Prod.fst).Nodup := by
    intro ks
    induction ks with
    | nil => intro acc _ hacc hnd; exact ⟨hacc, hnd⟩
    | cons x t ih =>
      intro acc hks hacc hnd
      rw [List.foldl_cons]
      refine ih _ (fun y hy => hks y (List.mem_cons_of_mem _ hy)) ?_ ?_
      · exact bucketsAdd_prop (fun gk w => gkeyOf gm w = gk ∧ w ∈ keys)
          (gkeyOf gm x) x acc hacc ⟨rfl, hks x (List.mem_cons_self _ _)⟩
      · exact bucketsAdd_fst_nodup (gkeyOf gm x) x acc hnd
  exact main keys [] (fun x hx => hx)
    (fun b hb => absurd hb (List.not_mem_nil b)) List.nodup_nil

theorem keysA_fillGroupFold (buckets : List (Chars × List Nat)) :
    ∀ vm : List (Nat × VMeta),
      keysA (buckets.foldl (fun acc b => fillGroup acc b.2) vm) = keysA vm := by
  induction buckets with
  | nil => intro vm; rfl
  | cons b rest ih =>
    intro vm
    rw [List.foldl_cons, ih, keysA_fillGroup]

theorem keysA_broadcastSnm (vm : List (Nat × VMeta)) (gm : List (Nat × Chars)) :
    keysA (broadcastSnm vm gm) = keysA vm := by
  unfold broadcastSnm
  exact keysA_fillGroupFold _ vm

theorem lookupA_fillGroupFold_not_mem (w : Nat) :
    ∀ (buckets : List (Chars × List Nat)) (vm : List (Nat × VMeta)),
      (∀ b ∈ buckets, w ∉ b.2) →
      lookupA (buckets.foldl (fun acc b => fillGroup acc b.2) vm) w =
        lookupA vm w := by
  intro buckets
  induction buckets with
  | nil => intro vm _; rfl
  | cons c rest ih =>
    intro vm hno
    rw [List.foldl_cons, ih _ (fun b hb => hno b (List.mem_cons_of_mem _ hb)),
      lookupA_fillGroup_not_mem _ _ _ (hno c (List.mem_cons_self _ _))]

theorem pass_stability (gm : List (Nat × Chars)) :
    ∀ (buckets : List (Chars × List Nat)) (vm : List (Nat × VMeta)),
      (∀ b ∈ buckets, ∀ v ∈ b.2, gkeyOf gm v = b.1 ∧ v ∈ keysA vm) →
      ((buckets.map Prod.fst).Nodup) →
      ∀ b ∈ buckets,
        (∀ v ∈ b.2, strippedEmptyAt
            (buckets.foldl (fun acc x => fillGroup acc x.2) vm) v)
          ∨ (∀ v ∈ b.2, ¬strippedEmptyAt
              (buckets.foldl (fun acc x => fillGroup acc x.2) vm) v) := by
  intro buckets
  induction buckets with
  | nil => intro vm _ _ b hb; cases hb
  | cons b0 rest ih =>
    intro vm hprops hnd b hb
    rw [List.foldl_cons]
    rcases List.mem_cons.1 hb with rfl | hbr
    · have hsub0 : ∀ v ∈ b.2, v ∈ keysA vm :=
        fun v hv => (hprops b (List.mem_cons_self _ _) v hv).2
      have hS := fillGroup_stability vm b.2 hsub0
      have hdisj : ∀ b' ∈ rest, ∀ v ∈ b.2, v ∉ b'.2 := by
        intro b' hb' v hv hvb'
        have h1 : gkeyOf gm v = b.1 := (hprops b (List.mem_cons_self _ _) v hv).1
        have h2 : gkeyOf gm v = b'.1 :=
          (hprops b' (List.mem_cons_of_mem _ hb') v hvb').1
        have heq : b.1 = b'.1 := by rw [← h1, h2]
        have hmem : b'.1 ∈ rest.map Prod.fst := List.mem_map_of_mem Prod.fst hb'
        rw [← heq] at hmem
        exact (List.nodup_cons.1 hnd).1 hmem
      have hframe : ∀ v ∈ b.2,
          lookupA (rest.foldl (fun acc x => fillGroup acc x.2) (fillGroup vm b.2)) v
            = lookupA (fillGroup vm b.2) v := by
        intro v hv
        exact lookupA_fillGroupFold_not_mem v rest _
          (fun b' hb' => hdisj b' hb' v hv)
      rcases hS with hall | hnon
      · left
        intro v hv
        exact (strippedEmptyAt_congr (hframe v hv)).2 (hall v hv)
      · right
        intro v hv
        exact fun hc => hnon v hv ((strippedEmptyAt_congr (hframe v hv)).1 hc)
    · refine ih (fillGroup vm b0.2) ?_ (List.nodup_cons.1 hnd).2 b hbr
      intro b' hb' v hv
      refine ⟨(hprops b' (List.mem_cons_of_mem _ hb') v hv).1, ?_⟩
      rw [keysA_fillGroup]
      exact (hprops b' (List.mem_cons_of_mem _ hb') v hv).2

/-! ## Claim C9 — idempotence of the short-name broadcast -/

/-- C9: the short-name broadcast is idempotent — applying
`_broadcast_snm` twice yields the same voice metadata as applying it
once, for every voice-metadata map with duplicate-free voice ids and every
group map.  After one pass, every group is either entirely without a
usable short name (no leader existed, nothing was or will be filled) or
entirely equipped with non-blank short names (the leader filled the blanks
and a leader is still found), so the second pass changes nothing. -/
theorem c9_broadcast_idempotent (vm : List (Nat × VMeta))
    (gm : List (Nat × Chars)) (hnd : (keysA vm).Nodup) :
    broadcastSnm (broadcastSnm vm gm) gm = broadcastSnm vm gm := by
  have hkeys : keysA (broadcastSnm vm gm) = keysA vm := keysA_broadcastSnm vm gm
  have hprops := buildG2Vids_props (keysA vm) gm
  have hstab := pass_stability gm (buildG2Vids (keysA vm) gm) vm hprops.1 hprops.2
  have hnd1 : (keysA (broadcastSnm vm gm)).Nodup := by rw [hkeys]; exact hnd
  have hfix : ∀ b ∈ buildG2Vids (keysA vm) gm,
      fillGroup (broadcastSnm vm gm) b.2 = broadcastSnm vm gm := by
    intro b hb
    exact fillGroup_id _ b.2 hnd1 (hstab b hb)
  have hfold : ∀ (l : List (Chars × List Nat)),
      (∀ b ∈ l, fillGroup (broadcastSnm vm gm) b.2 = broadcastSnm vm gm) →
      l.foldl (fun acc b => fillGroup acc b.2) (broadcastSnm vm gm) =
        broadcastSnm vm gm := by
    intro l
    induction l with
    | nil => intro _; rfl
    | cons c t iht =>
      intro hall
      rw [List.foldl_cons, hall c (List.mem_cons_self _ _)]
      exact iht (fun b hb => hall b (List.mem_cons_of_mem _ hb))
  show (buildG2Vids (keysA (broadcastSnm vm gm)) gm).foldl
      (fun acc b => fillGroup acc b.2) (broadcastSnm vm gm) = broadcastSnm vm gm
  rw [hkeys]
  exact hfold _ hfix

/-- C9 witness: idempotence instantiated at a two-voice map grouped as
`(1|2)` where only voice 1 carries a short name. -/
theorem c9_broadcast_idempotent_witness :
    broadcastSnm (broadcastSnm
        [(1, ⟨cs "treble", 0, cs "Flute", cs "Fl."⟩), (2, ⟨cs "bass", 0, cs "Oboe", []⟩)]
        [(1, cs "(1|2)"), (2, cs "(1|2)")])
      [(1, cs "(1|2)"), (2, cs "(1|2)")] =
    broadcastSnm
      [(1, ⟨cs "treble", 0, cs "Flute", cs "Fl."⟩), (2, ⟨cs "bass", 0, cs "Oboe", []⟩)]
      [(1, cs "(1|2)"), (2, cs "(1|2)")] :=
  c9_broadcast_idempotent
    [(1, ⟨cs "treble", 0, cs "Flute", cs "Fl."⟩), (2, ⟨cs "bass", 0, cs "Oboe", []⟩)]
    [(1, cs "(1|2)"), (2, cs "(1|2)")] (by decide)
